import Mathlib

/-!
Verification of the configuration-security layer of
israeli-bank-firefly-importer-security-enhanced.

The development shallowly embeds the two relevant modules:

* `src/crypto.js` — envelope encryption (`encrypt`, `decrypt`, `isEncrypted`,
  `decryptObject`, `encryptSensitiveFields`);
* `src/importer/scrapper.js` (config-loading section) — `hasEncryptedValues`,
  `applyCredentialEnvOverrides`, `decryptBanksConfig`, `decryptFireflyConfig`,
  `loadConfig`;
* `src/cli-encrypt.js` — `listSensitiveFields`.

JavaScript strings are embedded as `List Char`, Node `Buffer`s as `List Byte`
with `Byte := Fin 256`.  The external `node:crypto` primitives (PBKDF2 key
derivation and AES-256-GCM) are parameters of every definition, bundled in
`CryptoPrimitives`; theorems that depend on their behaviour take the relevant
AEAD contract facts as hypotheses.  `Buffer`'s base64 codec is embedded
concretely (`b64encode` / `b64decode`, RFC 4648) and its round-trip is proved.
-/

namespace BankImporter

/-- A byte, as stored in a Node `Buffer`. -/
abbrev Byte := Fin 256

/-- Build a byte from a natural number (used by the base64 decoder; all
arguments are in range at every call site). -/
def byteOf (n : Nat) : Byte := ⟨n % 256, Nat.mod_lt n (by decide)⟩

/-- The base64 alphabet, index `n` (0 ≤ n < 64) to character. -/
def b64Char (n : Nat) : Char :=
  if n < 26 then Char.ofNat (65 + n)
  else if n < 52 then Char.ofNat (97 + (n - 26))
  else if n < 62 then Char.ofNat (48 + (n - 52))
  else if n = 62 then '+'
  else '/'

/-- Base64 character to its 6-bit value. -/
def b64Val (c : Char) : Nat :=
  if c = '+' then 62
  else if c = '/' then 63
  else if 65 ≤ c.toNat ∧ c.toNat ≤ 90 then c.toNat - 65
  else if 97 ≤ c.toNat ∧ c.toNat ≤ 122 then c.toNat - 97 + 26
  else if 48 ≤ c.toNat ∧ c.toNat ≤ 57 then c.toNat - 48 + 52
  else 0

/-- `Buffer.prototype.toString('base64')`: standard base64 with padding. -/
def b64encode : List Byte → List Char
  | [] => []
  | [a] => [b64Char (a.val / 4), b64Char (a.val % 4 * 16), '=', '=']
  | [a, b] => [b64Char (a.val / 4), b64Char (a.val % 4 * 16 + b.val / 16),
      b64Char (b.val % 16 * 4), '=']
  | a :: b :: c :: rest =>
      b64Char (a.val / 4) :: b64Char (a.val % 4 * 16 + b.val / 16) ::
      b64Char (b.val % 16 * 4 + c.val / 64) :: b64Char (c.val % 64) ::
      b64encode rest

/-- `Buffer.from(s, 'base64')` on well-formed base64 text (the only inputs it
receives in this development are outputs of `b64encode`). -/
def b64decode : List Char → List Byte
  | c1 :: c2 :: c3 :: c4 :: rest =>
      if c3 = '=' then [byteOf (b64Val c1 * 4 + b64Val c2 / 16)]
      else if c4 = '=' then
        [byteOf (b64Val c1 * 4 + b64Val c2 / 16),
         byteOf (b64Val c2 % 16 * 16 + b64Val c3 / 4)]
      else
        byteOf (b64Val c1 * 4 + b64Val c2 / 16) ::
        byteOf (b64Val c2 % 16 * 16 + b64Val c3 / 4) ::
        byteOf (b64Val c3 % 4 * 64 + b64Val c4) ::
        b64decode rest
  | _ => []

theorem b64Val_b64Char : ∀ n : Fin 64, b64Val (b64Char n.val) = n.val := by decide

theorem b64Char_ne_pad : ∀ n : Fin 64, b64Char n.val ≠ '=' := by decide

theorem b64Val_b64Char_of_lt {n : Nat} (h : n < 64) : b64Val (b64Char n) = n :=
  b64Val_b64Char ⟨n, h⟩

theorem b64Char_ne_pad_of_lt {n : Nat} (h : n < 64) : b64Char n ≠ '=' :=
  b64Char_ne_pad ⟨n, h⟩

/-- The base64 codec round-trips on every byte list. -/
theorem b64decode_b64encode : ∀ l : List Byte, b64decode (b64encode l) = l
  | [] => rfl
  | [a] => by
      have ha := a.isLt
      simp only [b64encode, b64decode,
        if_pos rfl,
        b64Val_b64Char_of_lt (show a.val / 4 < 64 by omega),
        b64Val_b64Char_of_lt (show a.val % 4 * 16 < 64 by omega)]
      apply List.cons_eq_cons.mpr
      refine ⟨Fin.ext ?_, rfl⟩
      show (a.val / 4 * 4 + a.val % 4 * 16 / 16) % 256 = a.val
      omega
  | [a, b] => by
      have ha := a.isLt
      have hb := b.isLt
      have h3 : b.val % 16 * 4 < 64 := by omega
      simp only [b64encode, b64decode, if_neg (b64Char_ne_pad_of_lt h3),
        if_pos rfl,
        b64Val_b64Char_of_lt (show a.val / 4 < 64 by omega),
        b64Val_b64Char_of_lt (show a.val % 4 * 16 + b.val / 16 < 64 by omega),
        b64Val_b64Char_of_lt h3]
      apply List.cons_eq_cons.mpr
      refine ⟨Fin.ext ?_, ?_⟩
      · show (a.val / 4 * 4 + (a.val % 4 * 16 + b.val / 16) / 16) % 256 = a.val
        omega
      apply List.cons_eq_cons.mpr
      refine ⟨Fin.ext ?_, rfl⟩
      show ((a.val % 4 * 16 + b.val / 16) % 16 * 16 + b.val % 16 * 4 / 4) % 256 = b.val
      omega
  | a :: b :: c :: rest => by
      have ha := a.isLt
      have hb := b.isLt
      have hc := c.isLt
      have h3 : b.val % 16 * 4 + c.val / 64 < 64 := by omega
      have h4 : c.val % 64 < 64 := by omega
      have ih := b64decode_b64encode rest
      simp only [b64encode, b64decode, if_neg (b64Char_ne_pad_of_lt h3),
        if_neg (b64Char_ne_pad_of_lt h4),
        b64Val_b64Char_of_lt (show a.val / 4 < 64 by omega),
        b64Val_b64Char_of_lt (show a.val % 4 * 16 + b.val / 16 < 64 by omega),
        b64Val_b64Char_of_lt h3, b64Val_b64Char_of_lt h4]
      apply List.cons_eq_cons.mpr
      refine ⟨Fin.ext ?_, ?_⟩
      · show (a.val / 4 * 4 + (a.val % 4 * 16 + b.val / 16) / 16) % 256 = a.val
        omega
      apply List.cons_eq_cons.mpr
      refine ⟨Fin.ext ?_, ?_⟩
      · show ((a.val % 4 * 16 + b.val / 16) % 16 * 16 +
          (b.val % 16 * 4 + c.val / 64) / 4) % 256 = b.val
        omega
      apply List.cons_eq_cons.mpr
      refine ⟨Fin.ext ?_, ih⟩
      show ((b.val % 16 * 4 + c.val / 64) % 4 * 64 + c.val % 64) % 256 = c.val
      omega

/-!
## Cipher engine (src/crypto.js)
-/

/-- The external `node:crypto` primitives used by `src/crypto.js`:
`crypto.pbkdf2` (password, salt ↦ 32-byte key) and AES-256-GCM
(`createCipheriv`/`createDecipheriv`).  `gcmEncrypt key iv plaintext` returns
`(ciphertext, authTag)`; `gcmDecrypt key iv authTag ciphertext` returns the
plaintext, or `none` when authentication fails (the UTF-8 codec applied by
`cipher.update(plaintext, 'utf8')` / `decrypted.toString('utf8')` is folded
into the two functions, so plaintexts are strings and ciphertexts bytes). -/
structure CryptoPrimitives where
  pbkdf2 : List Char → List Byte → List Byte
  gcmEncrypt : List Byte → List Byte → List Char → List Byte × List Byte
  gcmDecrypt : List Byte → List Byte → List Byte → List Byte → Option (List Char)

/-- The distinct failures thrown by `encrypt` / `decrypt` in `src/crypto.js`.
`invalidInput` is the "... are required" guard, `notEncrypted` is
"Text is not in encrypted format", `authenticationFailed` is
"Decryption failed: Invalid master password or corrupted data".
`unsupportedFormatVersion` appears in the specification's error taxonomy
("the decryptor must reject unknown tags with UnsupportedFormatVersion") but
no code path in `src/crypto.js` produces it. -/
inductive CryptoError where
  | invalidInput : CryptoError
  | notEncrypted : CryptoError
  | authenticationFailed : CryptoError
  | unsupportedFormatVersion : CryptoError
deriving DecidableEq, Repr

/-- `ENCRYPTED_PREFIX = 'encrypted:v1:'`. -/
def encMarker : List Char := "encrypted:v1:".toList

/-- `isEncrypted(text)`: pure prefix check (`text.startsWith(ENCRYPTED_PREFIX)`;
the `typeof text === 'string'` part of the source guard is enforced by the
embedding's types, and at non-string nodes of the tree codec by `Node` cases). -/
def isEncrypted (text : List Char) : Bool :=
  encMarker.isPrefixOf text

/-- `encrypt(plaintext, masterPassword)`.  The two `crypto.randomBytes` calls
are embedded as the `salt` and `iv` arguments (the caller supplies the
randomness); the rest follows the source: derive the key, encrypt, and return
`ENCRYPTED_PREFIX + base64(salt ‖ iv ‖ authTag ‖ ciphertext)`. -/
def encrypt (C : CryptoPrimitives) (salt iv : List Byte)
    (plaintext masterPassword : List Char) : Except CryptoError (List Char) :=
  if plaintext.isEmpty || masterPassword.isEmpty then .error .invalidInput
  else
    let key := C.pbkdf2 masterPassword salt
    let encrypted := C.gcmEncrypt key iv plaintext
    .ok (encMarker ++ b64encode (salt ++ iv ++ encrypted.2 ++ encrypted.1))

/-- `decrypt(encryptedText, masterPassword)`: input guard, prefix check,
base64-decode, fixed-width field extraction (salt 32, iv 12, authTag 16,
ciphertext the rest), key derivation, authenticated decryption.  A GCM
authentication failure is mapped to `authenticationFailed` by the
`catch` block of the source. -/
def decrypt (C : CryptoPrimitives)
    (encryptedText masterPassword : List Char) : Except CryptoError (List Char) :=
  if encryptedText.isEmpty || masterPassword.isEmpty then .error .invalidInput
  else if ¬ isEncrypted encryptedText then .error .notEncrypted
  else
    let base64Data := encryptedText.drop encMarker.length
    let combined := b64decode base64Data
    let salt := combined.take 32
    let iv := (combined.drop 32).take 12
    let authTag := (combined.drop 44).take 16
    let ciphertext := combined.drop 60
    let key := C.pbkdf2 masterPassword salt
    match C.gcmDecrypt key iv authTag ciphertext with
    | some decrypted => .ok decrypted
    | none => .error .authenticationFailed

theorem isPrefixOf_append_self (l₁ l₂ : List Char) : l₁.isPrefixOf (l₁ ++ l₂) = true :=
  List.isPrefixOf_iff_prefix.mpr (List.prefix_append _ _)

theorem isEncrypted_marker_append (x : List Char) :
    isEncrypted (encMarker ++ x) = true :=
  isPrefixOf_append_self _ _

theorem encMarker_ne_nil : encMarker ≠ [] := by decide

/-- The envelope `encrypt` assembles on success. -/
def envelopeOf (C : CryptoPrimitives) (salt iv : List Byte) (p pw : List Char) :
    List Char :=
  encMarker ++ b64encode (salt ++ iv ++
    (C.gcmEncrypt (C.pbkdf2 pw salt) iv p).2 ++
    (C.gcmEncrypt (C.pbkdf2 pw salt) iv p).1)

theorem isEncrypted_envelopeOf (C : CryptoPrimitives) (salt iv : List Byte)
    (p pw : List Char) : isEncrypted (envelopeOf C salt iv p pw) = true :=
  isEncrypted_marker_append _

/-- On a nonempty plaintext and master password, `encrypt` succeeds and
returns the assembled envelope. -/
theorem encrypt_ok (C : CryptoPrimitives) (salt iv : List Byte)
    (p pw : List Char) (hp : p ≠ []) (hpw : pw ≠ []) :
    encrypt C salt iv p pw = .ok (envelopeOf C salt iv p pw) := by
  simp [encrypt, envelopeOf, List.isEmpty_iff, hp, hpw]

/-- Whatever `encrypt` returns successfully satisfies `isEncrypted`. -/
theorem encrypt_ok_isEncrypted (C : CryptoPrimitives) (salt iv : List Byte)
    (p pw e : List Char) (h : encrypt C salt iv p pw = .ok e) :
    isEncrypted e = true := by
  by_cases hp : p = []
  · simp [encrypt, hp] at h
  by_cases hpw : pw = []
  · simp [encrypt, hpw, List.isEmpty_iff] at h
  rw [encrypt_ok C salt iv p pw hp hpw] at h
  cases h
  exact isEncrypted_marker_append _

/-- Frame decomposition: `decrypt` applied to an envelope assembled from a
32-byte salt, 12-byte iv, 16-byte tag and arbitrary ciphertext hands exactly
those components (and the key derived from the same salt) to the AEAD. -/
theorem decrypt_envelope (C : CryptoPrimitives) (salt iv tag ct : List Byte)
    (pw : List Char) (hpw : pw ≠ [])
    (hsalt : salt.length = 32) (hiv : iv.length = 12) (htag : tag.length = 16) :
    decrypt C (encMarker ++ b64encode (salt ++ iv ++ tag ++ ct)) pw =
      match C.gcmDecrypt (C.pbkdf2 pw salt) iv tag ct with
      | some decrypted => .ok decrypted
      | none => .error .authenticationFailed := by
  have hne : (encMarker ++ b64encode (salt ++ iv ++ tag ++ ct)).isEmpty = false := by
    rw [List.isEmpty_eq_false_iff_exists_mem]
    exact ⟨'e', by simp [encMarker]⟩
  have henc : isEncrypted (encMarker ++ b64encode (salt ++ iv ++ tag ++ ct)) = true :=
    isEncrypted_marker_append _
  have hdrop : (encMarker ++ b64encode (salt ++ iv ++ tag ++ ct)).drop encMarker.length
      = b64encode (salt ++ iv ++ tag ++ ct) := List.drop_left _ _
  have hcomb : b64decode ((encMarker ++ b64encode (salt ++ iv ++ tag ++ ct)).drop
      encMarker.length) = salt ++ (iv ++ (tag ++ ct)) := by
    rw [hdrop, b64decode_b64encode]
    simp [List.append_assoc]
  have hsalt' : (salt ++ (iv ++ (tag ++ ct))).take 32 = salt := by
    rw [← hsalt]; exact List.take_left _ _
  have hdrop32 : (salt ++ (iv ++ (tag ++ ct))).drop 32 = iv ++ (tag ++ ct) := by
    rw [← hsalt]; exact List.drop_left _ _
  have hiv' : ((salt ++ (iv ++ (tag ++ ct))).drop 32).take 12 = iv := by
    rw [hdrop32, ← hiv]; exact List.take_left _ _
  have hdrop44 : (salt ++ (iv ++ (tag ++ ct))).drop 44 = tag ++ ct := by
    have : (44 : Nat) = 32 + 12 := by norm_num
    rw [this, ← List.drop_drop, hdrop32, ← hiv]
    exact List.drop_left _ _
  have htag' : ((salt ++ (iv ++ (tag ++ ct))).drop 44).take 16 = tag := by
    rw [hdrop44, ← htag]; exact List.take_left _ _
  have hct : (salt ++ (iv ++ (tag ++ ct))).drop 60 = ct := by
    have : (60 : Nat) = 44 + 16 := by norm_num
    rw [this, ← List.drop_drop, hdrop44, ← htag]
    exact List.drop_left _ _
  rw [decrypt]
  simp only [hne, List.isEmpty_iff, hpw, Bool.false_or, if_neg, henc,
    not_true_eq_false, if_false, hcomb, hsalt', hiv', htag', hct]

/-- C1: for every non-empty plaintext `p` and non-empty secret `s`,
`Decrypt(Encrypt(p, s), s)` succeeds and returns exactly `p`.  The salt and iv
are the `crypto.randomBytes(32)` / `crypto.randomBytes(12)` values of the
encrypting call; the two hypotheses about `C` are the AES-GCM contract at the
derived key (the tag is 16 bytes, and decryption with the same key, iv and tag
recovers the plaintext). -/
theorem decrypt_encrypt_roundtrip (C : CryptoPrimitives) (p s : List Char)
    (salt iv : List Byte) (hp : p ≠ []) (hs : s ≠ [])
    (hsalt : salt.length = 32) (hiv : iv.length = 12)
    (htag : (C.gcmEncrypt (C.pbkdf2 s salt) iv p).2.length = 16)
    (hround : C.gcmDecrypt (C.pbkdf2 s salt) iv
      (C.gcmEncrypt (C.pbkdf2 s salt) iv p).2
      (C.gcmEncrypt (C.pbkdf2 s salt) iv p).1 = some p) :
    ∃ env, encrypt C salt iv p s = .ok env ∧ decrypt C env s = .ok p := by
  refine ⟨_, encrypt_ok C salt iv p s hp hs, ?_⟩
  simp only [envelopeOf]
  rw [decrypt_envelope C salt iv _ _ s hs hsalt hiv htag, hround]

/-- A trivially honest instance of the external primitives used to witness
satisfiability of the AEAD contract hypotheses at concrete inputs. -/
def toyRound : CryptoPrimitives where
  pbkdf2 := fun _ salt => salt
  gcmEncrypt := fun _ _ _ => ([], List.replicate 16 (byteOf 0))
  gcmDecrypt := fun _ _ _ _ => some ['a']

theorem decrypt_encrypt_roundtrip_witness :
    ['a'] ≠ ([] : List Char) ∧ ['s'] ≠ ([] : List Char) ∧
    (List.replicate 32 (byteOf 0)).length = 32 ∧
    (List.replicate 12 (byteOf 0)).length = 12 ∧
    ∃ env, encrypt toyRound (List.replicate 32 (byteOf 0))
        (List.replicate 12 (byteOf 0)) ['a'] ['s'] = .ok env ∧
      decrypt toyRound env ['s'] = .ok ['a'] :=
  ⟨by decide, by decide, by decide, by decide,
    decrypt_encrypt_roundtrip toyRound ['a'] ['s'] _ _
      (by decide) (by decide) (by decide) (by decide) (by decide) (by decide)⟩

/-- C6: decrypting an envelope with a different secret fails with
`authenticationFailed` and returns no plaintext.  `hauth` is the AEAD
authentication contract at the concrete instance: decrypting with the key
derived from the wrong secret fails the tag check. -/
theorem decrypt_wrong_secret (C : CryptoPrimitives) (p s1 s2 : List Char)
    (salt iv : List Byte) (hp : p ≠ []) (hs1 : s1 ≠ []) (hs2 : s2 ≠ [])
    (hss : s1 ≠ s2) (hsalt : salt.length = 32) (hiv : iv.length = 12)
    (htag : (C.gcmEncrypt (C.pbkdf2 s1 salt) iv p).2.length = 16)
    (hauth : C.gcmDecrypt (C.pbkdf2 s2 salt) iv
      (C.gcmEncrypt (C.pbkdf2 s1 salt) iv p).2
      (C.gcmEncrypt (C.pbkdf2 s1 salt) iv p).1 = none) :
    ∃ env, encrypt C salt iv p s1 = .ok env ∧
      decrypt C env s2 = .error .authenticationFailed := by
  refine ⟨_, encrypt_ok C salt iv p s1 hp hs1, ?_⟩
  simp only [envelopeOf]
  rw [decrypt_envelope C salt iv _ _ s2 hs2 hsalt hiv htag, hauth]

/-- An instance of the external primitives whose tag check always fails,
witnessing the wrong-secret hypotheses at concrete inputs. -/
def toyReject : CryptoPrimitives where
  pbkdf2 := fun pw _ => List.map (fun c => byteOf c.toNat) pw
  gcmEncrypt := fun _ _ _ => ([], List.replicate 16 (byteOf 0))
  gcmDecrypt := fun _ _ _ _ => none

theorem decrypt_wrong_secret_witness :
    ['a'] ≠ ([] : List Char) ∧ ['s'] ≠ ([] : List Char) ∧
    ['t'] ≠ ([] : List Char) ∧ (['s'] : List Char) ≠ ['t'] ∧
    ∃ env, encrypt toyReject (List.replicate 32 (byteOf 0))
        (List.replicate 12 (byteOf 0)) ['a'] ['s'] = .ok env ∧
      decrypt toyReject env ['t'] = .error .authenticationFailed :=
  ⟨by decide, by decide, by decide, by decide,
    decrypt_wrong_secret toyReject ['a'] ['s'] ['t'] _ _ (by decide) (by decide)
      (by decide) (by decide) (by decide) (by decide) (by decide) (by decide)⟩

/-- C3 counterexample: a string with an envelope-style prefix and the unknown
version tag `v2` is rejected by `decrypt`, but with the generic
`notEncrypted` error ("Text is not in encrypted format") — exactly the error
any plaintext gets — not with an `unsupportedFormatVersion` error, which no
code path produces. -/
theorem decrypt_unknown_version_counterexample :
    decrypt toyRound ("encrypted:v2:AAAA".toList) ['s'] = .error .notEncrypted ∧
    decrypt toyRound ("some plaintext".toList) ['s'] = .error .notEncrypted ∧
    CryptoError.notEncrypted ≠ CryptoError.unsupportedFormatVersion := by
  refine ⟨by rfl, by rfl, by decide⟩

/-- C3 (amended): a string carrying an envelope-style prefix with an unknown
version tag (it begins with `encrypted:` but not with the full
`encrypted:v1:` marker) is rejected by `decrypt` — it is never parsed as a v1
envelope — but the rejection is the generic `notEncrypted` error, the same
one plaintext receives; there is no distinct `UnsupportedFormatVersion`. -/
theorem decrypt_unknown_version (C : CryptoPrimitives) (env s : List Char)
    (henv : ("encrypted:".toList).isPrefixOf env = true)
    (hv1 : isEncrypted env = false) (hs : s ≠ []) :
    decrypt C env s = .error .notEncrypted := by
  have hne : env.isEmpty = false := by
    cases env with
    | nil => exact absurd henv (by decide)
    | cons c cs => rfl
  rw [decrypt]
  simp [hne, List.isEmpty_iff, hs, hv1]

theorem decrypt_unknown_version_witness :
    ("encrypted:".toList).isPrefixOf ("encrypted:v2:AAAA".toList) = true ∧
    isEncrypted ("encrypted:v2:AAAA".toList) = false ∧
    ['s'] ≠ ([] : List Char) ∧
    decrypt toyReject ("encrypted:v2:AAAA".toList) ['s'] = .error .notEncrypted :=
  ⟨by decide, by decide, by decide,
    decrypt_unknown_version toyReject _ ['s'] (by decide) (by decide) (by decide)⟩

/-- C10: `decrypt` on an empty envelope string or empty secret fails with the
invalid-input error ("Encrypted text and master password are required"); in
particular the empty string is not classified as `notEncrypted`, and no
parsing or key derivation is reached (the result does not depend on `C`). -/
theorem decrypt_empty_input (C : CryptoPrimitives) (e s : List Char)
    (h : e = [] ∨ s = []) : decrypt C e s = .error .invalidInput := by
  rcases h with h | h <;> simp [decrypt, h]

theorem decrypt_empty_input_witness :
    (([] : List Char) = [] ∨ (['s'] : List Char) = []) ∧
    decrypt toyRound [] ['s'] = .error .invalidInput ∧
    decrypt toyRound ("encrypted:v1:AAAA".toList) [] = .error .invalidInput :=
  ⟨Or.inl rfl,
    decrypt_empty_input toyRound [] ['s'] (Or.inl rfl),
    decrypt_empty_input toyRound _ [] (Or.inr rfl)⟩

/-!
## Tree codec (src/crypto.js, src/cli-encrypt.js)

A configuration document is a YAML/JSON-like tree.  `Node.null` embeds the
JavaScript `null` (and the `undefined` case of the source's
`obj === null || obj === undefined` guard: absent values never occur inside a
parsed document, only as missing keys, which the resolver embedding models
with `Option`).  Sequence and mapping children are separate mutual inductives
so that structural mutual recursion and induction are available.
-/

mutual
inductive Node where
  | str : List Char → Node
  | num : Int → Node
  | bool : Bool → Node
  | null : Node
  | arr : NodeList → Node
  | obj : ObjFields → Node

inductive NodeList where
  | nil : NodeList
  | cons : Node → NodeList → NodeList

inductive ObjFields where
  | nil : ObjFields
  | cons : List Char → Node → ObjFields → ObjFields
end

/-- Convert a Lean list to a `NodeList` (for writing concrete documents). -/
def NodeList.ofList : List Node → NodeList
  | [] => .nil
  | n :: l => .cons n (NodeList.ofList l)

/-- Convert a Lean association list to `ObjFields`. -/
def ObjFields.ofList : List (List Char × Node) → ObjFields
  | [] => .nil
  | (k, n) :: l => .cons k n (ObjFields.ofList l)

/-- String leaf from a literal. -/
def nstr (s : String) : Node := .str s.toList

/-- Mapping node from a literal association list. -/
def nobj (l : List (String × Node)) : Node :=
  .obj (ObjFields.ofList (l.map fun p => (p.1.toList, p.2)))

/-- Sequence node from a literal list. -/
def narr (l : List Node) : Node := .arr (NodeList.ofList l)

/-- JavaScript `String.prototype.trim()`. -/
def jsTrim (s : List Char) : List Char :=
  ((s.dropWhile Char.isWhitespace).reverse.dropWhile Char.isWhitespace).reverse

/-- Substring containment, as tested by an unanchored regular expression. -/
def containsChars (needle : List Char) : List Char → Bool
  | [] => needle.isEmpty
  | c :: rest => needle.isPrefixOf (c :: rest) || containsChars needle rest

/-- The `sensitivePatterns` test shared verbatim by
`encryptSensitiveFields` (src/crypto.js) and `listSensitiveFields`
(src/cli-encrypt.js): `/\.credentials\./`, `/\.credentials$/`,
`/\.password$/`, `/\.tokenApi$/`, `/\.token$/`, `/\.secret$/`, `/\.apiKey$/`. -/
def sensitivePath (path : List Char) : Bool :=
  containsChars ".credentials.".toList path ||
  (".credentials".toList).isSuffixOf path ||
  (".password".toList).isSuffixOf path ||
  (".tokenApi".toList).isSuffixOf path ||
  (".token".toList).isSuffixOf path ||
  (".secret".toList).isSuffixOf path ||
  (".apiKey".toList).isSuffixOf path

/-- Decimal rendering of a sequence index (template literal interpolation). -/
def natToChars (n : Nat) : List Char := (Nat.repr n).toList

/-- Path of a sequence child: `path[index]`. -/
def pathIdx (path : List Char) (i : Nat) : List Char :=
  path ++ '[' :: (natToChars i ++ [']'])

/-- Path of a mapping child: `path ? path.key : key`. -/
def pathKey (path k : List Char) : List Char :=
  if path.isEmpty then k else path ++ '.' :: k

mutual
/-- `decryptObject(obj, masterPassword)` (src/crypto.js): replace every
encrypted string leaf by its decryption, pass everything else through,
rebuilding sequences and mappings recursively.  A failing leaf decryption
rejects the whole traversal, as a rejected promise does under `Promise.all`. -/
def decryptObject (C : CryptoPrimitives) (pw : List Char) :
    Node → Except CryptoError Node
  | .str s =>
      if isEncrypted s then Except.map Node.str (decrypt C s pw)
      else .ok (.str s)
  | .num i => .ok (.num i)
  | .bool b => .ok (.bool b)
  | .null => .ok .null
  | .arr l => Except.map Node.arr (decryptObjectList C pw l)
  | .obj f => Except.map Node.obj (decryptObjectFields C pw f)

def decryptObjectList (C : CryptoPrimitives) (pw : List Char) :
    NodeList → Except CryptoError NodeList
  | .nil => .ok .nil
  | .cons n l => do
      let n' ← decryptObject C pw n
      let l' ← decryptObjectList C pw l
      .ok (.cons n' l')

def decryptObjectFields (C : CryptoPrimitives) (pw : List Char) :
    ObjFields → Except CryptoError ObjFields
  | .nil => .ok .nil
  | .cons k n f => do
      let n' ← decryptObject C pw n
      let f' ← decryptObjectFields C pw f
      .ok (.cons k n' f')
end

mutual
/-- `encryptSensitiveFields(obj, masterPassword, path)` (src/crypto.js): a
string leaf is left alone when already encrypted; otherwise it is encrypted
exactly when its accumulated path matches `sensitivePath` and it is non-empty
after trimming.  `rnd` supplies the fresh `crypto.randomBytes` salt/iv pair
consumed by the `encrypt` call at a given path (one call site per path). -/
def encryptSensitiveFields (C : CryptoPrimitives)
    (rnd : List Char → List Byte × List Byte) (pw : List Char) :
    Node → List Char → Except CryptoError Node
  | .str s, path =>
      if isEncrypted s then .ok (.str s)
      else if sensitivePath path && !(jsTrim s).isEmpty then
        Except.map Node.str (encrypt C (rnd path).1 (rnd path).2 s pw)
      else .ok (.str s)
  | .num i, _ => .ok (.num i)
  | .bool b, _ => .ok (.bool b)
  | .null, _ => .ok .null
  | .arr l, path => Except.map Node.arr (encryptSensitiveFieldsList C rnd pw l path 0)
  | .obj f, path => Except.map Node.obj (encryptSensitiveFieldsObj C rnd pw f path)

def encryptSensitiveFieldsList (C : CryptoPrimitives)
    (rnd : List Char → List Byte × List Byte) (pw : List Char) :
    NodeList → List Char → Nat → Except CryptoError NodeList
  | .nil, _, _ => .ok .nil
  | .cons n l, path, i => do
      let n' ← encryptSensitiveFields C rnd pw n (pathIdx path i)
      let l' ← encryptSensitiveFieldsList C rnd pw l path (i + 1)
      .ok (.cons n' l')

def encryptSensitiveFieldsObj (C : CryptoPrimitives)
    (rnd : List Char → List Byte × List Byte) (pw : List Char) :
    ObjFields → List Char → Except CryptoError ObjFields
  | .nil, _ => .ok .nil
  | .cons k n f, path => do
      let n' ← encryptSensitiveFields C rnd pw n (pathKey path k)
      let f' ← encryptSensitiveFieldsObj C rnd pw f path
      .ok (.cons k n' f')
end

mutual
/-- `hasEncryptedValues(obj)` (src/importer/scrapper.js, config loader):
does any string leaf carry the envelope marker? -/
def hasEncryptedValues : Node → Bool
  | .str s => isEncrypted s
  | .num _ => false
  | .bool _ => false
  | .null => false
  | .arr l => hasEncryptedValuesList l
  | .obj f => hasEncryptedValuesFields f

def hasEncryptedValuesList : NodeList → Bool
  | .nil => false
  | .cons n l => hasEncryptedValues n || hasEncryptedValuesList l

def hasEncryptedValuesFields : ObjFields → Bool
  | .nil => false
  | .cons _ n f => hasEncryptedValues n || hasEncryptedValuesFields f
end

mutual
/-- `listSensitiveFields(obj, path, fields)` (src/cli-encrypt.js): the paths,
in depth-first order, of the string leaves that are sensitive, non-blank and
not yet encrypted (the accumulator-passing of the source is embedded as list
concatenation, which produces the same pushes in the same order). -/
def listSensitiveFields : Node → List Char → List (List Char)
  | .str s, path =>
      if sensitivePath path && !(jsTrim s).isEmpty && !isEncrypted s then [path]
      else []
  | .num _, _ => []
  | .bool _, _ => []
  | .null, _ => []
  | .arr l, path => listSensitiveFieldsList l path 0
  | .obj f, path => listSensitiveFieldsObj f path

def listSensitiveFieldsList : NodeList → List Char → Nat → List (List Char)
  | .nil, _, _ => []
  | .cons n l, path, i =>
      listSensitiveFields n (pathIdx path i) ++ listSensitiveFieldsList l path (i + 1)

def listSensitiveFieldsObj : ObjFields → List Char → List (List Char)
  | .nil, _ => []
  | .cons k n f, path =>
      listSensitiveFields n (pathKey path k) ++ listSensitiveFieldsObj f path
end

mutual
/-- Specification-side observer for C8: the paths, in depth-first order, of
the string leaves at which two same-shape documents differ — i.e. the leaves
an encryption pass replaced. -/
def diffPaths : Node → Node → List Char → List (List Char)
  | .str s, .str t, path => if s = t then [] else [path]
  | .arr l, .arr l', path => diffPathsList l l' path 0
  | .obj f, .obj f', path => diffPathsFields f f' path
  | _, _, _ => []

def diffPathsList : NodeList → NodeList → List Char → Nat → List (List Char)
  | .cons n l, .cons n' l', path, i =>
      diffPaths n n' (pathIdx path i) ++ diffPathsList l l' path (i + 1)
  | _, _, _, _ => []

def diffPathsFields : ObjFields → ObjFields → List Char → List (List Char)
  | .cons k n f, .cons _ n' f', path =>
      diffPaths n n' (pathKey path k) ++ diffPathsFields f f' path
  | _, _, _ => []
end

/-- The document of the spec's path-targeting example:
`{credentials: {username: "u", password: "p"}, name: "n"}`. -/
def credsDoc : Node :=
  nobj [("credentials", nobj [("username", nstr "u"), ("password", nstr "p")]),
        ("name", nstr "n")]

theorem jsTrim_ne_nil {s : List Char} (h : jsTrim s ≠ []) : s ≠ [] := by
  intro hs
  exact h (by rw [hs]; rfl)

/-- C2 counterexample: on the example document the leaf at
`credentials.username` is NOT rewritten — its accumulated path is
`credentials.username`, which has no leading dot, so no sensitivity pattern
matches it; only `credentials.password` (suffix `.password`) is rewritten.
The claim (and the spec's example) says `username` is replaced with an
encrypted envelope; the code leaves it as the plaintext `"u"`. -/
theorem encryptSensitiveFields_username_counterexample :
    encryptSensitiveFields toyRound (fun _ => ([], [])) ("master-secret".toList)
        credsDoc [] =
      .ok (nobj [("credentials",
          nobj [("username", nstr "u"),
                ("password", Node.str (encMarker ++ b64encode (List.replicate 16 (byteOf 0))))]),
        ("name", nstr "n")]) ∧
    sensitivePath ("credentials.username".toList) = false ∧
    isEncrypted ("u".toList) = false := by
  exact ⟨by rfl, by rfl, by rfl⟩

/-- C2 (amended): on the example document, `encryptSensitiveFields` replaces
the string leaf at `credentials.password` with an encrypted envelope and
leaves both `credentials.username` and `name` unchanged (at the root,
`credentials.username` matches no sensitivity pattern because every pattern
requires a leading dot or a dotted occurrence).  In general a string leaf is
rewritten exactly when it is not already encrypted, its accumulated path
satisfies `sensitivePath`, and it is non-empty after trimming; otherwise it is
returned unchanged. -/
theorem encryptSensitiveFields_path_targeting (C : CryptoPrimitives)
    (rnd : List Char → List Byte × List Byte) (pw : List Char) (hpw : pw ≠ []) :
    (∃ e, encryptSensitiveFields C rnd pw credsDoc [] =
        .ok (nobj [("credentials", nobj [("username", nstr "u"), ("password", Node.str e)]),
          ("name", nstr "n")]) ∧
      isEncrypted e = true) ∧
    (∀ path s, isEncrypted s = false → sensitivePath path = true → jsTrim s ≠ [] →
      ∃ e, encryptSensitiveFields C rnd pw (.str s) path = .ok (.str e) ∧
        isEncrypted e = true) ∧
    (∀ path s, isEncrypted s = true ∨ sensitivePath path = false ∨ jsTrim s = [] →
      encryptSensitiveFields C rnd pw (.str s) path = .ok (.str s)) := by
  have hp : ("p".toList : List Char) ≠ [] := by decide
  have henc := encrypt_ok C (rnd ("credentials.password".toList)).1
    (rnd ("credentials.password".toList)).2 ("p".toList) pw hp hpw
  have h1 : encryptSensitiveFields C rnd pw credsDoc [] =
      .ok (nobj [("credentials", nobj [("username", nstr "u"),
          ("password", Node.str (envelopeOf C (rnd ("credentials.password".toList)).1
            (rnd ("credentials.password".toList)).2 ("p".toList) pw))]),
        ("name", nstr "n")]) := by
    show Except.map Node.obj
        (Except.bind (Except.map Node.obj
          (Except.bind
            (Except.bind (Except.map Node.str
              (encrypt C (rnd ("credentials.password".toList)).1
                (rnd ("credentials.password".toList)).2 ("p".toList) pw))
              (fun a => Except.ok (ObjFields.cons ("password".toList) a ObjFields.nil)))
            (fun f => Except.ok (ObjFields.cons ("username".toList)
              (Node.str ("u".toList)) f))))
          (fun n' => Except.ok (ObjFields.cons ("credentials".toList) n'
            (ObjFields.cons ("name".toList) (Node.str ("n".toList)) ObjFields.nil)))) = _
    rw [henc]
    rfl
  refine ⟨⟨_, h1, isEncrypted_envelopeOf _ _ _ _ _⟩, ?_, ?_⟩
  · intro path s hEnc hSens hTrim
    have hp' : s ≠ [] := jsTrim_ne_nil hTrim
    have hTe : (jsTrim s).isEmpty = false := by
      cases h' : (jsTrim s).isEmpty
      · rfl
      · exact absurd (List.isEmpty_iff.mp h') hTrim
    refine ⟨envelopeOf C (rnd path).1 (rnd path).2 s pw, ?_,
      isEncrypted_envelopeOf _ _ _ _ _⟩
    rw [encryptSensitiveFields]
    simp only [hEnc, hSens, hTe, Bool.not_false, Bool.and_true, if_true,
      Bool.false_eq_true, if_false]
    rw [encrypt_ok C (rnd path).1 (rnd path).2 s pw hp' hpw]
    rfl
  · intro path s h
    rw [encryptSensitiveFields]
    rcases h with h | h | h
    · simp [h]
    · simp [h]
    · simp [h]

theorem encryptSensitiveFields_path_targeting_witness :
    ("mp".toList : List Char) ≠ [] ∧
    (∃ e, encryptSensitiveFields toyRound (fun _ => ([], [])) ("mp".toList) credsDoc [] =
        .ok (nobj [("credentials", nobj [("username", nstr "u"), ("password", Node.str e)]),
          ("name", nstr "n")]) ∧
      isEncrypted e = true) :=
  ⟨by decide,
    (encryptSensitiveFields_path_targeting toyRound (fun _ => ([], []))
      ("mp".toList) (by decide)).1⟩

theorem exc_bind_ok {ε α β : Type} (a : α) (f : α → Except ε β) :
    (Except.ok a >>= f) = f a := rfl

theorem exc_bind_error {ε α β : Type} (e : ε) (f : α → Except ε β) :
    ((Except.error e : Except ε α) >>= f) = Except.error e := rfl

theorem exc_map_ok {ε α β : Type} (g : α → β) (a : α) :
    Except.map g (Except.ok a : Except ε α) = .ok (g a) := rfl

theorem exc_map_error {ε α β : Type} (g : α → β) (e : ε) :
    Except.map g (Except.error e : Except ε α) = .error e := rfl

mutual
theorem encSF_idem_node (C : CryptoPrimitives)
    (rnd : List Char → List Byte × List Byte) (pw : List Char) :
    ∀ (n : Node) (path : List Char) (d' : Node),
    encryptSensitiveFields C rnd pw n path = .ok d' →
    encryptSensitiveFields C rnd pw d' path = .ok d'
  | .str s, path, d', h => by
      rw [encryptSensitiveFields] at h
      by_cases h1 : isEncrypted s = true
      · rw [if_pos h1] at h
        injection h with h2
        subst h2
        rw [encryptSensitiveFields, if_pos h1]
      · rw [if_neg h1] at h
        by_cases h2 : (sensitivePath path && !(jsTrim s).isEmpty) = true
        · rw [if_pos h2] at h
          cases hx : encrypt C (rnd path).1 (rnd path).2 s pw with
          | error e =>
              rw [hx, exc_map_error] at h
              exact Except.noConfusion h
          | ok env =>
              rw [hx, exc_map_ok] at h
              injection h with h3
              subst h3
              rw [encryptSensitiveFields,
                if_pos (encrypt_ok_isEncrypted C (rnd path).1 (rnd path).2 s pw env hx)]
        · rw [if_neg h2] at h
          injection h with h3
          subst h3
          rw [encryptSensitiveFields, if_neg h1, if_neg h2]
  | .num i, _, d', h => by
      injection h with h2
      subst h2
      rfl
  | .bool b, _, d', h => by
      injection h with h2
      subst h2
      rfl
  | .null, _, d', h => by
      injection h with h2
      subst h2
      rfl
  | .arr l, path, d', h => by
      rw [encryptSensitiveFields] at h
      cases hx : encryptSensitiveFieldsList C rnd pw l path 0 with
      | error e =>
          rw [hx, exc_map_error] at h
          exact Except.noConfusion h
      | ok l' =>
          rw [hx, exc_map_ok] at h
          injection h with h2
          subst h2
          rw [encryptSensitiveFields, encSF_idem_list C rnd pw l path 0 l' hx,
            exc_map_ok]
  | .obj f, path, d', h => by
      rw [encryptSensitiveFields] at h
      cases hx : encryptSensitiveFieldsObj C rnd pw f path with
      | error e =>
          rw [hx, exc_map_error] at h
          exact Except.noConfusion h
      | ok f' =>
          rw [hx, exc_map_ok] at h
          injection h with h2
          subst h2
          rw [encryptSensitiveFields, encSF_idem_fields C rnd pw f path f' hx,
            exc_map_ok]

theorem encSF_idem_list (C : CryptoPrimitives)
    (rnd : List Char → List Byte × List Byte) (pw : List Char) :
    ∀ (l : NodeList) (path : List Char) (i : Nat) (l' : NodeList),
    encryptSensitiveFieldsList C rnd pw l path i = .ok l' →
    encryptSensitiveFieldsList C rnd pw l' path i = .ok l'
  | .nil, _, _, l', h => by
      injection h with h2
      subst h2
      rfl
  | .cons n l, path, i, l', h => by
      rw [encryptSensitiveFieldsList] at h
      cases hx : encryptSensitiveFields C rnd pw n (pathIdx path i) with
      | error e =>
          rw [hx, exc_bind_error] at h
          exact Except.noConfusion h
      | ok n' =>
          rw [hx, exc_bind_ok] at h
          cases hy : encryptSensitiveFieldsList C rnd pw l path (i + 1) with
          | error e =>
              rw [hy, exc_bind_error] at h
              exact Except.noConfusion h
          | ok lt =>
              rw [hy, exc_bind_ok] at h
              injection h with h2
              subst h2
              rw [encryptSensitiveFieldsList]
              simp only [encSF_idem_node C rnd pw n (pathIdx path i) n' hx,
                encSF_idem_list C rnd pw l path (i + 1) lt hy, exc_bind_ok]

theorem encSF_idem_fields (C : CryptoPrimitives)
    (rnd : List Char → List Byte × List Byte) (pw : List Char) :
    ∀ (f : ObjFields) (path : List Char) (f' : ObjFields),
    encryptSensitiveFieldsObj C rnd pw f path = .ok f' →
    encryptSensitiveFieldsObj C rnd pw f' path = .ok f'
  | .nil, _, f', h => by
      injection h with h2
      subst h2
      rfl
  | .cons k n f, path, f', h => by
      rw [encryptSensitiveFieldsObj] at h
      cases hx : encryptSensitiveFields C rnd pw n (pathKey path k) with
      | error e =>
          rw [hx, exc_bind_error] at h
          exact Except.noConfusion h
      | ok n' =>
          rw [hx, exc_bind_ok] at h
          cases hy : encryptSensitiveFieldsObj C rnd pw f path with
          | error e =>
              rw [hy, exc_bind_error] at h
              exact Except.noConfusion h
          | ok ft =>
              rw [hy, exc_bind_ok] at h
              injection h with h2
              subst h2
              rw [encryptSensitiveFieldsObj]
              simp only [encSF_idem_node C rnd pw n (pathKey path k) n' hx,
                encSF_idem_fields C rnd pw f path ft hy, exc_bind_ok]
end

/-- C7: `encryptSensitiveFields` is idempotent — a second pass over the
result of a successful first pass returns it unchanged: every leaf the first
pass encrypted now carries the envelope marker and is skipped, and every leaf
it left alone fails the same predicate again at the same path. -/
theorem encryptSensitiveFields_idempotent (C : CryptoPrimitives)
    (rnd : List Char → List Byte × List Byte) (pw : List Char)
    (d : Node) (path : List Char) (d' : Node)
    (h : encryptSensitiveFields C rnd pw d path = .ok d') :
    encryptSensitiveFields C rnd pw d' path = .ok d' :=
  encSF_idem_node C rnd pw d path d' h

/-- The example document after the first encryption pass under `toyRound`
with the all-empty randomness oracle. -/
def credsDocEncrypted : Node :=
  nobj [("credentials", nobj [("username", nstr "u"),
      ("password", Node.str (encMarker ++ b64encode (List.replicate 16 (byteOf 0))))]),
    ("name", nstr "n")]

theorem encryptSensitiveFields_idempotent_witness :
    encryptSensitiveFields toyRound (fun _ => ([], [])) ("mp".toList) credsDoc []
      = .ok credsDocEncrypted ∧
    encryptSensitiveFields toyRound (fun _ => ([], [])) ("mp".toList)
      credsDocEncrypted [] = .ok credsDocEncrypted :=
  ⟨by rfl,
    encryptSensitiveFields_idempotent toyRound (fun _ => ([], [])) ("mp".toList)
      credsDoc [] credsDocEncrypted (by rfl)⟩

mutual
theorem encSF_diff_node (C : CryptoPrimitives)
    (rnd : List Char → List Byte × List Byte) (pw : List Char) (hpw : pw ≠ []) :
    ∀ (n : Node) (path : List Char) (d' : Node),
    encryptSensitiveFields C rnd pw n path = .ok d' →
    diffPaths n d' path = listSensitiveFields n path
  | .str s, path, d', h => by
      rw [encryptSensitiveFields] at h
      by_cases h1 : isEncrypted s = true
      · rw [if_pos h1] at h
        injection h with h2
        subst h2
        rw [diffPaths, listSensitiveFields]
        simp [h1]
      · rw [if_neg h1] at h
        have h1' : isEncrypted s = false := by
          cases hh : isEncrypted s
          · rfl
          · exact absurd hh h1
        by_cases h2 : (sensitivePath path && !(jsTrim s).isEmpty) = true
        · rw [if_pos h2] at h
          have hpair : sensitivePath path = true ∧ (!(jsTrim s).isEmpty) = true := by
            simpa using h2
          have hTe : (jsTrim s).isEmpty = false := by simpa using hpair.2
          have hs' : s ≠ [] := jsTrim_ne_nil (fun hh => by
            rw [hh] at hTe
            exact absurd hTe (by decide))
          rw [encrypt_ok C (rnd path).1 (rnd path).2 s pw hs' hpw, exc_map_ok] at h
          injection h with h3
          subst h3
          have hneq : s ≠ envelopeOf C (rnd path).1 (rnd path).2 s pw := by
            intro he
            rw [he] at h1'
            rw [isEncrypted_envelopeOf] at h1'
            exact Bool.noConfusion h1'
          rw [diffPaths, listSensitiveFields, if_neg hneq]
          simp [h2, h1']
        · rw [if_neg h2] at h
          injection h with h3
          subst h3
          have h2' : (sensitivePath path && !(jsTrim s).isEmpty) = false := by
            cases hh : (sensitivePath path && !(jsTrim s).isEmpty)
            · rfl
            · exact absurd hh h2
          rw [diffPaths, listSensitiveFields]
          simp [h2']
  | .num i, _, d', h => by
      injection h with h2
      subst h2
      rfl
  | .bool b, _, d', h => by
      injection h with h2
      subst h2
      rfl
  | .null, _, d', h => by
      injection h with h2
      subst h2
      rfl
  | .arr l, path, d', h => by
      rw [encryptSensitiveFields] at h
      cases hx : encryptSensitiveFieldsList C rnd pw l path 0 with
      | error e =>
          rw [hx, exc_map_error] at h
          exact Except.noConfusion h
      | ok l' =>
          rw [hx, exc_map_ok] at h
          injection h with h2
          subst h2
          show diffPathsList l l' path 0 = listSensitiveFieldsList l path 0
          exact encSF_diff_list C rnd pw hpw l path 0 l' hx
  | .obj f, path, d', h => by
      rw [encryptSensitiveFields] at h
      cases hx : encryptSensitiveFieldsObj C rnd pw f path with
      | error e =>
          rw [hx, exc_map_error] at h
          exact Except.noConfusion h
      | ok f' =>
          rw [hx, exc_map_ok] at h
          injection h with h2
          subst h2
          show diffPathsFields f f' path = listSensitiveFieldsObj f path
          exact encSF_diff_fields C rnd pw hpw f path f' hx

theorem encSF_diff_list (C : CryptoPrimitives)
    (rnd : List Char → List Byte × List Byte) (pw : List Char) (hpw : pw ≠ []) :
    ∀ (l : NodeList) (path : List Char) (i : Nat) (l' : NodeList),
    encryptSensitiveFieldsList C rnd pw l path i = .ok l' →
    diffPathsList l l' path i = listSensitiveFieldsList l path i
  | .nil, _, _, l', h => by
      injection h with h2
      subst h2
      rfl
  | .cons n l, path, i, l', h => by
      rw [encryptSensitiveFieldsList] at h
      cases hx : encryptSensitiveFields C rnd pw n (pathIdx path i) with
      | error e =>
          rw [hx, exc_bind_error] at h
          exact Except.noConfusion h
      | ok n' =>
          rw [hx, exc_bind_ok] at h
          cases hy : encryptSensitiveFieldsList C rnd pw l path (i + 1) with
          | error e =>
              rw [hy, exc_bind_error] at h
              exact Except.noConfusion h
          | ok lt =>
              rw [hy, exc_bind_ok] at h
              injection h with h2
              subst h2
              show diffPaths n n' (pathIdx path i) ++ diffPathsList l lt path (i + 1)
                = listSensitiveFields n (pathIdx path i) ++ listSensitiveFieldsList l path (i + 1)
              rw [encSF_diff_node C rnd pw hpw n (pathIdx path i) n' hx,
                encSF_diff_list C rnd pw hpw l path (i + 1) lt hy]

theorem encSF_diff_fields (C : CryptoPrimitives)
    (rnd : List Char → List Byte × List Byte) (pw : List Char) (hpw : pw ≠ []) :
    ∀ (f : ObjFields) (path : List Char) (f' : ObjFields),
    encryptSensitiveFieldsObj C rnd pw f path = .ok f' →
    diffPathsFields f f' path = listSensitiveFieldsObj f path
  | .nil, _, f', h => by
      injection h with h2
      subst h2
      rfl
  | .cons k n f, path, f', h => by
      rw [encryptSensitiveFieldsObj] at h
      cases hx : encryptSensitiveFields C rnd pw n (pathKey path k) with
      | error e =>
          rw [hx, exc_bind_error] at h
          exact Except.noConfusion h
      | ok n' =>
          rw [hx, exc_bind_ok] at h
          cases hy : encryptSensitiveFieldsObj C rnd pw f path with
          | error e =>
              rw [hy, exc_bind_error] at h
              exact Except.noConfusion h
          | ok ft =>
              rw [hy, exc_bind_ok] at h
              injection h with h2
              subst h2
              show diffPaths n n' (pathKey path k) ++ diffPathsFields f ft path
                = listSensitiveFields n (pathKey path k) ++ listSensitiveFieldsObj f path
              rw [encSF_diff_node C rnd pw hpw n (pathKey path k) n' hx,
                encSF_diff_fields C rnd pw hpw f path ft hy]
end

/-- C8: the CLI preview and the encryption rewrite agree — for every document
and every successful run of `encryptSensitiveFields`, the depth-first list of
paths at which the output's string leaves differ from the input's
(`diffPaths`, the leaves the pass replaced with envelopes) is exactly
`listSensitiveFields` of the input: same sensitivity predicate, same
non-blank condition, same exclusion of already-encrypted leaves.
(`listSensitiveFields` itself is a pure observer in this embedding — the
source only pushes path strings onto its accumulator and returns the
document untouched.) -/
theorem listSensitiveFields_previews_encryption (C : CryptoPrimitives)
    (rnd : List Char → List Byte × List Byte) (pw : List Char) (hpw : pw ≠ [])
    (d : Node) (path : List Char) (d' : Node)
    (h : encryptSensitiveFields C rnd pw d path = .ok d') :
    diffPaths d d' path = listSensitiveFields d path :=
  encSF_diff_node C rnd pw hpw d path d' h

theorem listSensitiveFields_previews_encryption_witness :
    ("mp".toList : List Char) ≠ [] ∧
    encryptSensitiveFields toyRound (fun _ => ([], [])) ("mp".toList) credsDoc []
      = .ok credsDocEncrypted ∧
    diffPaths credsDoc credsDocEncrypted [] = listSensitiveFields credsDoc [] ∧
    listSensitiveFields credsDoc [] = [("credentials.password".toList)] :=
  ⟨by decide, by rfl,
    listSensitiveFields_previews_encryption toyRound (fun _ => ([], []))
      ("mp".toList) (by decide) credsDoc [] credsDocEncrypted (by rfl),
    by rfl⟩

/-!
## Configuration resolver (src/importer/scrapper.js, config-loading section)

The merged nconf store is embedded as a single document (`Node`).  nconf keys
are colon-separated; a numeric segment applied to an array indexes it, so a
key splits into a `List Key` of field names and indices.  `cfgGet` is
`config.get`; `cfgSet` is `config.set` with nconf's memory-store semantics:
walk the path, replacing a missing or non-object intermediate with a fresh
`{}`, and assign at the final segment.  Assigning an out-of-range index or a
field name into an array is modelled as a no-op (every call site below
obtains its indices from `forEach` over the same array, so it never goes out
of range).  The nconf `.env()` / `.file()` / `.overrides()` layering that
produces the merged document, and the YAML parse, are the external nconf/yaml
collaborators: `loadConfig` here starts from the merged document, exactly at
the `config.required` line of the source. -/

inductive Key where
  | fieldK : List Char → Key
  | indexK : Nat → Key
deriving DecidableEq

/-- JavaScript object property lookup. -/
def fieldsGet : ObjFields → List Char → Option Node
  | .nil, _ => none
  | .cons k n f, key => if k = key then some n else fieldsGet f key

/-- Array element lookup. -/
def listGet : NodeList → Nat → Option Node
  | .nil, _ => none
  | .cons n _, 0 => some n
  | .cons _ l, i + 1 => listGet l i

/-- `target[key]` for one key segment. -/
def getChild : Node → Key → Option Node
  | .obj f, .fieldK k => fieldsGet f k
  | .arr l, .indexK i => listGet l i
  | _, _ => none

/-- JavaScript property assignment: overwrite an existing key or add it. -/
def fieldsSet : ObjFields → List Char → Node → ObjFields
  | .nil, key, v => .cons key v .nil
  | .cons k n f, key, v =>
      if k = key then .cons k v f else .cons k n (fieldsSet f key v)

/-- Array element assignment; out of range is a no-op (unreachable here). -/
def listSet : NodeList → Nat → Node → NodeList
  | .nil, _, _ => .nil
  | .cons _ l, 0, v => .cons v l
  | .cons n l, i + 1, v => .cons n (listSet l i v)

/-- `target[key] = v` for one key segment. -/
def nodeAssign : Node → Key → Node → Node
  | .obj f, .fieldK k, v => .obj (fieldsSet f k v)
  | .arr l, .indexK i, v => .arr (listSet l i v)
  | t, _, _ => t

/-- nconf's intermediate-segment coercion:
`if (!target[key] || typeof target[key] !== 'object') target[key] = {}`. -/
def coerceContainer : Option Node → Node
  | some (.obj f) => .obj f
  | some (.arr l) => .arr l
  | _ => .obj .nil

/-- `config.get(key)`. -/
def cfgGet : Node → List Key → Option Node
  | t, [] => some t
  | t, k :: rest =>
      match getChild t k with
      | some c => cfgGet c rest
      | none => none

/-- `config.set(key, v)`. -/
def cfgSet : Node → List Key → Node → Node
  | t, [], _ => t
  | t, [k], v => nodeAssign t k v
  | t, k :: k2 :: rest, v =>
      nodeAssign t k (cfgSet (coerceContainer (getChild t k)) (k2 :: rest) v)

/-- The process environment, name to value. -/
abbrev EnvMap := List Char → Option (List Char)

/-- `BANK_<i>_<FIELD>`. -/
def bankVar (i : Nat) (field : List Char) : List Char :=
  "BANK_".toList ++ natToChars i ++ '_' :: field

/-- `BANK_<i>_CC_<j>_<FIELD>`. -/
def ccVar (i j : Nat) (field : List Char) : List Char :=
  "BANK_".toList ++ natToChars i ++ "_CC_".toList ++ natToChars j ++ '_' :: field

/-- `banks:<i>:credentials:<field>`. -/
def bankCredKeys (i : Nat) (field : List Char) : List Key :=
  [.fieldK ("banks".toList), .indexK i, .fieldK ("credentials".toList), .fieldK field]

/-- `banks:<i>:creditCards:<j>:credentials:<field>`. -/
def ccCredKeys (i j : Nat) (field : List Char) : List Key :=
  [.fieldK ("banks".toList), .indexK i, .fieldK ("creditCards".toList), .indexK j,
   .fieldK ("credentials".toList), .fieldK field]

/-- `if (value) config.set(path, value)` — a JS string is truthy iff
non-empty, and an absent variable is skipped. -/
def maybeSet (root : Node) (p : List Key) (v : Option (List Char)) : Node :=
  match v with
  | some s => if s.isEmpty then root else cfgSet root p (.str s)
  | none => root

/-- `bank.creditCards || []` (a non-array or absent value contributes no
iterations). -/
def ccListOf (bank : Node) : NodeList :=
  match bank with
  | .obj f =>
      match fieldsGet f ("creditCards".toList) with
      | some (.arr l) => l
      | _ => .nil
  | _ => .nil

/-- The credit-card loop of `applyCredentialEnvOverrides` for bank `i`,
starting at card index `j`. -/
def applyCcOverrides (env : EnvMap) (i : Nat) : Nat → NodeList → Node → Node
  | _, .nil, root => root
  | j, .cons _ ccs, root =>
      let r1 := maybeSet root (ccCredKeys i j ("username".toList))
        (env (ccVar i j ("USERNAME".toList)))
      let r2 := maybeSet r1 (ccCredKeys i j ("password".toList))
        (env (ccVar i j ("PASSWORD".toList)))
      let r3 := maybeSet r2 (ccCredKeys i j ("id".toList))
        (env (ccVar i j ("ID".toList)))
      let r4 := maybeSet r3 (ccCredKeys i j ("card6Digits".toList))
        (env (ccVar i j ("CARD6DIGITS".toList)))
      applyCcOverrides env i (j + 1) ccs r4

/-- The body of the bank loop of `applyCredentialEnvOverrides` for the bank
at index `i` (the captured `bank` element supplies the credit-card count). -/
def applyBankOverrides (env : EnvMap) (i : Nat) (bank : Node) (root : Node) : Node :=
  let r1 := maybeSet root (bankCredKeys i ("username".toList))
    (env (bankVar i ("USERNAME".toList)))
  let r2 := maybeSet r1 (bankCredKeys i ("password".toList))
    (env (bankVar i ("PASSWORD".toList)))
  let r3 := maybeSet r2 (bankCredKeys i ("id".toList))
    (env (bankVar i ("ID".toList)))
  let r4 := maybeSet r3 (bankCredKeys i ("userCode".toList))
    (env (bankVar i ("USERCODE".toList)))
  applyCcOverrides env i 0 (ccListOf bank) r4

/-- `config.get('banks') || []` read once before the loop (the loop's
`forEach` iterates the captured array). -/
def banksListOf (root : Node) : NodeList :=
  match cfgGet root [.fieldK ("banks".toList)] with
  | some (.arr l) => l
  | _ => .nil

/-- `banks.forEach((bank, bankIndex) => ...)`, from index `i0`. -/
def applyBanksFold (env : EnvMap) : Nat → NodeList → Node → Node
  | _, .nil, root => root
  | i, .cons bank banks, root =>
      applyBanksFold env (i + 1) banks (applyBankOverrides env i bank root)

/-- `applyCredentialEnvOverrides()` (src/importer/scrapper.js). -/
def applyCredentialEnvOverrides (env : EnvMap) (root : Node) : Node :=
  applyBanksFold env 0 (banksListOf root) root

/-- Failures of the resolution pipeline: `config.required` (nconf throw),
the missing-master-password throw, and the decryption wrapper that rethrows
any cipher failure as "Failed to decrypt credentials: ...". -/
inductive LoadError where
  | missingRequiredConfig : LoadError
  | masterSecretRequired : LoadError
  | decryptionFailed : CryptoError → LoadError
deriving DecidableEq, Repr

/-- JavaScript falsiness of a document value. -/
def jsFalsy : Node → Bool
  | .null => true
  | .str s => s.isEmpty
  | .num i => i == 0
  | .bool b => !b
  | _ => false

/-- `isEncrypted` applied to a possibly-absent value of any type (the
`typeof text === 'string'` guard). -/
def isEncryptedOpt : Option Node → Bool
  | some (.str s) => isEncrypted s
  | _ => false

/-- `hasEncryptedValues` applied to a possibly-absent value
(`hasEncryptedValues(undefined)` is `false`). -/
def hasEncryptedValuesOpt : Option Node → Bool
  | none => false
  | some n => hasEncryptedValues n

/-- nconf key `banks`. -/
def banksKeys : List Key := [.fieldK ("banks".toList)]

/-- nconf key `firefly:tokenApi`. -/
def tokenApiKeys : List Key := [.fieldK ("firefly".toList), .fieldK ("tokenApi".toList)]

/-- `decryptBanksConfig(masterPassword)`: decrypt the whole banks subtree and
store it back; `if (!banks) return` skips absent or falsy values. -/
def decryptBanksConfig (C : CryptoPrimitives) (pw : List Char) (root : Node) :
    Except CryptoError Node :=
  match cfgGet root banksKeys with
  | none => .ok root
  | some banks =>
      if jsFalsy banks then .ok root
      else do
        let d ← decryptObject C pw banks
        .ok (cfgSet root banksKeys d)

/-- `decryptFireflyConfig(masterPassword)`: decrypt `firefly:tokenApi` only
when present and carrying the envelope marker. -/
def decryptFireflyConfig (C : CryptoPrimitives) (pw : List Char) (root : Node) :
    Except CryptoError Node :=
  match cfgGet root tokenApiKeys with
  | none => .ok root
  | some t =>
      if !jsFalsy t && isEncryptedOpt (some t) then do
        let d ← decryptObject C pw t
        .ok (cfgSet root tokenApiKeys d)
      else .ok root

/-- The decryption step of `loadConfig` (its `needsDecryption` block): gate on
`hasEncryptedValues(banks) || isEncrypted(tokenApi)`, require the master
password, and run the two decryption passes, wrapping cipher failures. -/
def resolveDecryption (C : CryptoPrimitives) (mpw : Option (List Char))
    (root : Node) : Except LoadError Node :=
  if hasEncryptedValuesOpt (cfgGet root banksKeys) ||
      isEncryptedOpt (cfgGet root tokenApiKeys) then
    match mpw with
    | none => .error .masterSecretRequired
    | some pw =>
        match decryptBanksConfig C pw root with
        | .error e => .error (.decryptionFailed e)
        | .ok r1 =>
            match decryptFireflyConfig C pw r1 with
            | .error e => .error (.decryptionFailed e)
            | .ok r2 => .ok r2
  else .ok root

/-- `config.required(['firefly', 'firefly:baseUrl', 'firefly:tokenApi',
'banks'])`: every key must resolve to a defined value. -/
def requiredOk (root : Node) : Bool :=
  (cfgGet root [.fieldK ("firefly".toList)]).isSome &&
  (cfgGet root [.fieldK ("firefly".toList), .fieldK ("baseUrl".toList)]).isSome &&
  (cfgGet root tokenApiKeys).isSome &&
  (cfgGet root banksKeys).isSome

/-- `process.env.MASTER_PASSWORD` truthiness: an empty value counts as
absent. -/
def envSecret : Option (List Char) → Option (List Char)
  | some s => if s.isEmpty then none else some s
  | none => none

/-- `loadConfig(path)` from the `config.required` line on: required-key check,
credential environment overrides, then the decryption step.  (The preceding
nconf store layering that merges defaults, file and environment into `root`
is the external nconf collaborator.) -/
def loadConfig (C : CryptoPrimitives) (env : EnvMap) (mpw : Option (List Char))
    (root : Node) : Except LoadError Node :=
  if !requiredOk root then .error .missingRequiredConfig
  else resolveDecryption C (envSecret mpw) (applyCredentialEnvOverrides env root)

theorem fieldsGet_fieldsSet_self : ∀ (f : ObjFields) (k : List Char) (v : Node),
    fieldsGet (fieldsSet f k v) k = some v
  | .nil, k, v => by simp [fieldsSet, fieldsGet]
  | .cons k' n f, k, v => by
      by_cases h : k' = k
      · simp [fieldsSet, fieldsGet, h]
      · simp only [fieldsSet, if_neg h, fieldsGet]
        exact fieldsGet_fieldsSet_self f k v

theorem fieldsGet_fieldsSet_other : ∀ (f : ObjFields) (k k' : List Char) (v : Node),
    k ≠ k' → fieldsGet (fieldsSet f k v) k' = fieldsGet f k'
  | .nil, k, k', v, h => by simp [fieldsSet, fieldsGet, h]
  | .cons k0 n f, k, k', v, h => by
      by_cases h0 : k0 = k
      · subst h0
        simp [fieldsSet, fieldsGet, h]
      · simp only [fieldsSet, if_neg h0, fieldsGet]
        by_cases h1 : k0 = k'
        · simp [h1]
        · rw [if_neg h1, if_neg h1]
          exact fieldsGet_fieldsSet_other f k k' v h

theorem listGet_listSet_self : ∀ (l : NodeList) (i : Nat) (v x : Node),
    listGet l i = some x → listGet (listSet l i v) i = some v
  | .nil, i, v, x, h => Option.noConfusion h
  | .cons n l, 0, v, x, h => rfl
  | .cons n l, i + 1, v, x, h => listGet_listSet_self l i v x h

theorem listGet_listSet_none : ∀ (l : NodeList) (i : Nat) (v : Node),
    listGet l i = none → listSet l i v = l
  | .nil, _, _, _ => rfl
  | .cons n l, 0, v, h => Option.noConfusion h
  | .cons n l, i + 1, v, h => by
      rw [listSet, listGet_listSet_none l i v h]

theorem listGet_listSet_other : ∀ (l : NodeList) (i j : Nat) (v : Node),
    i ≠ j → listGet (listSet l i v) j = listGet l j
  | .nil, _, _, _, _ => rfl
  | .cons n l, 0, 0, v, h => absurd rfl h
  | .cons n l, 0, j + 1, v, h => rfl
  | .cons n l, i + 1, 0, v, h => rfl
  | .cons n l, i + 1, j + 1, v, h =>
      listGet_listSet_other l i j v (fun hh => h (by rw [hh]))

theorem getChild_nodeAssign_other (t : Node) (a b : Key) (v : Node) (hab : a ≠ b) :
    getChild (nodeAssign t a v) b = getChild t b := by
  cases t with
  | obj f =>
      cases a with
      | fieldK ka =>
          cases b with
          | fieldK kb =>
              have hk : ka ≠ kb := fun hh => hab (by rw [hh])
              show fieldsGet (fieldsSet f ka v) kb = fieldsGet f kb
              exact fieldsGet_fieldsSet_other f ka kb v hk
          | indexK j => rfl
      | indexK i => rfl
  | arr l =>
      cases a with
      | indexK i =>
          cases b with
          | indexK j =>
              have hk : i ≠ j := fun hh => hab (by rw [hh])
              show listGet (listSet l i v) j = listGet l j
              exact listGet_listSet_other l i j v hk
          | fieldK kb => rfl
      | fieldK ka => rfl
  | str s => rfl
  | num n => rfl
  | bool b' => rfl
  | null => rfl

theorem getChild_nodeAssign_self (t : Node) (k : Key) (v c : Node)
    (h : getChild t k = some c) : getChild (nodeAssign t k v) k = some v := by
  cases t with
  | obj f =>
      cases k with
      | fieldK kk => exact fieldsGet_fieldsSet_self f kk v
      | indexK i => exact Option.noConfusion h
  | arr l =>
      cases k with
      | indexK i => exact listGet_listSet_self l i v c h
      | fieldK kk => exact Option.noConfusion h
  | str s => cases k <;> exact Option.noConfusion h
  | num n => cases k <;> exact Option.noConfusion h
  | bool b => cases k <;> exact Option.noConfusion h
  | null => cases k <;> exact Option.noConfusion h

theorem getChild_objNil (k : Key) : getChild (.obj .nil) k = none := by
  cases k <;> rfl

theorem cfgGet_objNil_cons (k : Key) (rest : List Key) :
    cfgGet (.obj .nil) (k :: rest) = none := by
  rw [cfgGet, getChild_objNil]

theorem cfgGet_single (t : Node) (k : Key) : cfgGet t [k] = getChild t k := by
  cases hgc : getChild t k <;> simp [cfgGet, hgc]

theorem cfgGet_cons_some (t : Node) (k : Key) (rest : List Key) (c : Node)
    (h : getChild t k = some c) : cfgGet t (k :: rest) = cfgGet c rest := by
  rw [cfgGet, h]

theorem cfgGet_cons_none (t : Node) (k : Key) (rest : List Key)
    (h : getChild t k = none) : cfgGet t (k :: rest) = none := by
  rw [cfgGet, h]

theorem cfgSet_cons₂ (t : Node) (k k2 : Key) (rest : List Key) (v : Node) :
    cfgSet t (k :: k2 :: rest) v =
      nodeAssign t k (cfgSet (coerceContainer (getChild t k)) (k2 :: rest) v) := rfl

theorem cfgGet_coerce_cons (c : Node) (k : Key) (rest : List Key) :
    cfgGet (coerceContainer (some c)) (k :: rest) = cfgGet c (k :: rest) := by
  cases c with
  | obj f => rfl
  | arr l => rfl
  | str s => cases k <;> rfl
  | num n => cases k <;> rfl
  | bool b => cases k <;> rfl
  | null => cases k <;> rfl

theorem coerceContainer_of_getChild_some (c : Node) (k : Key) (y : Node)
    (h : getChild c k = some y) : coerceContainer (some c) = c := by
  cases c with
  | obj f => rfl
  | arr l => rfl
  | str s => cases k <;> exact Option.noConfusion h
  | num n => cases k <;> exact Option.noConfusion h
  | bool b => cases k <;> exact Option.noConfusion h
  | null => cases k <;> exact Option.noConfusion h

/-- Frame property of `cfgSet`: a write whose key path diverges from the read
path (same prefix, then different segments) leaves the read unchanged. -/
theorem cfgGet_cfgSet_diverge : ∀ (pre : List Key) (t : Node) (a b : Key)
    (p q : List Key) (v : Node), a ≠ b →
    cfgGet (cfgSet t (pre ++ a :: p) v) (pre ++ b :: q) = cfgGet t (pre ++ b :: q)
  | [], t, a, b, p, q, v, hab => by
      cases p with
      | nil =>
          show cfgGet (nodeAssign t a v) (b :: q) = cfgGet t (b :: q)
          rw [cfgGet, cfgGet, getChild_nodeAssign_other t a b v hab]
      | cons k2 rest =>
          show cfgGet (nodeAssign t a _) (b :: q) = cfgGet t (b :: q)
          rw [cfgGet, cfgGet, getChild_nodeAssign_other t a b _ hab]
  | k :: pre', t, a, b, p, q, v, hab => by
      obtain ⟨k2, rest, hsp⟩ : ∃ k2 rest, pre' ++ a :: p = k2 :: rest := by
        cases pre' with
        | nil => exact ⟨a, p, rfl⟩
        | cons x xs => exact ⟨x, xs ++ a :: p, rfl⟩
      obtain ⟨k3, rest3, hsq⟩ : ∃ k3 rest3, pre' ++ b :: q = k3 :: rest3 := by
        cases pre' with
        | nil => exact ⟨b, q, rfl⟩
        | cons x xs => exact ⟨x, xs ++ b :: q, rfl⟩
      show cfgGet (cfgSet t (k :: (pre' ++ a :: p)) v) (k :: (pre' ++ b :: q))
        = cfgGet t (k :: (pre' ++ b :: q))
      rw [hsp, cfgSet_cons₂, ← hsp]
      cases hgc : getChild t k with
      | some c =>
          rw [cfgGet_cons_some t k _ c hgc,
            cfgGet_cons_some _ k _ _ (getChild_nodeAssign_self t k _ c hgc)]
          rw [cfgGet_cfgSet_diverge pre' (coerceContainer (some c)) a b p q v hab]
          rw [hsq, cfgGet_coerce_cons]
      | none =>
          rw [cfgGet_cons_none t k _ hgc]
          cases t with
          | obj f =>
              cases k with
              | fieldK kk =>
                  show cfgGet (.obj (fieldsSet f kk
                      (cfgSet (coerceContainer none) (pre' ++ a :: p) v)))
                    (Key.fieldK kk :: (pre' ++ b :: q)) = none
                  rw [cfgGet_cons_some _ _ _ _
                    (show getChild (.obj (fieldsSet f kk
                        (cfgSet (coerceContainer none) (pre' ++ a :: p) v)))
                      (.fieldK kk) = some _ from fieldsGet_fieldsSet_self f kk _)]
                  rw [cfgGet_cfgSet_diverge pre' (coerceContainer none) a b p q v hab]
                  rw [hsq]
                  exact cfgGet_objNil_cons k3 rest3
              | indexK i => exact cfgGet_cons_none _ _ _ hgc
          | arr l =>
              cases k with
              | indexK i =>
                  have hls : listSet l i (cfgSet (coerceContainer none)
                      (pre' ++ a :: p) v) = l :=
                    listGet_listSet_none l i _ hgc
                  show cfgGet (.arr (listSet l i (cfgSet (coerceContainer none)
                    (pre' ++ a :: p) v))) (Key.indexK i :: (pre' ++ b :: q)) = none
                  rw [hls]
                  exact cfgGet_cons_none _ _ _ hgc
              | fieldK kk => exact cfgGet_cons_none _ _ _ hgc
          | str s => exact cfgGet_cons_none _ _ _ hgc
          | num n => exact cfgGet_cons_none _ _ _ hgc
          | bool b' => exact cfgGet_cons_none _ _ _ hgc
          | null => exact cfgGet_cons_none _ _ _ hgc

/-- Overwriting an existing leaf: if the read path currently resolves, a
`cfgSet` along exactly that path makes it resolve to the written value. -/
theorem cfgGet_cfgSet_self : ∀ (p : List Key) (t : Node) (x v : Node),
    p ≠ [] → cfgGet t p = some x → cfgGet (cfgSet t p v) p = some v
  | [], _, _, _, hne, _ => absurd rfl hne
  | [k], t, x, v, _, h => by
      rw [cfgGet_single] at h
      show cfgGet (nodeAssign t k v) [k] = some v
      rw [cfgGet_single]
      exact getChild_nodeAssign_self t k v x h
  | k :: k2 :: rest, t, x, v, _, h => by
      cases hgc : getChild t k with
      | none => rw [cfgGet_cons_none t k _ hgc] at h; exact Option.noConfusion h
      | some c =>
          rw [cfgGet_cons_some t k _ c hgc] at h
          have hc2 : ∃ y, getChild c k2 = some y := by
            cases hgc2 : getChild c k2 with
            | none => rw [cfgGet_cons_none c k2 _ hgc2] at h; exact Option.noConfusion h
            | some y => exact ⟨y, rfl⟩
          obtain ⟨y, hy⟩ := hc2
          rw [cfgSet_cons₂, hgc, coerceContainer_of_getChild_some c k2 y hy]
          rw [cfgGet_cons_some _ k _ _ (getChild_nodeAssign_self t k _ c hgc)]
          exact cfgGet_cfgSet_self (k2 :: rest) c x v (by simp) h

theorem decryptBanksConfig_frame (C : CryptoPrimitives) (pw : List Char)
    (root r1 : Node) (h : decryptBanksConfig C pw root = .ok r1)
    (b : Key) (hb : b ≠ .fieldK ("banks".toList)) (q : List Key) :
    cfgGet r1 (b :: q) = cfgGet root (b :: q) := by
  rw [decryptBanksConfig] at h
  cases hg : cfgGet root banksKeys with
  | none =>
      simp only [hg] at h
      injection h with h2
      subst h2
      rfl
  | some banks =>
      simp only [hg] at h
      by_cases hf : jsFalsy banks = true
      · rw [if_pos hf] at h
        injection h with h2
        subst h2
        rfl
      · rw [if_neg hf] at h
        cases hd : decryptObject C pw banks with
        | error e =>
            rw [hd, exc_bind_error] at h
            exact Except.noConfusion h
        | ok d =>
            rw [hd, exc_bind_ok] at h
            injection h with h2
            subst h2
            exact cfgGet_cfgSet_diverge [] root (.fieldK ("banks".toList)) b [] q d
              (fun hh => hb hh.symm)

theorem decryptFireflyConfig_frame (C : CryptoPrimitives) (pw : List Char)
    (root r2 : Node) (h : decryptFireflyConfig C pw root = .ok r2) :
    (∀ b : Key, b ≠ .fieldK ("firefly".toList) → ∀ q : List Key,
      cfgGet r2 (b :: q) = cfgGet root (b :: q)) ∧
    (∀ k : Key, k ≠ .fieldK ("tokenApi".toList) → ∀ q : List Key,
      cfgGet r2 (.fieldK ("firefly".toList) :: k :: q)
        = cfgGet root (.fieldK ("firefly".toList) :: k :: q)) := by
  rw [decryptFireflyConfig] at h
  cases hg : cfgGet root tokenApiKeys with
  | none =>
      simp only [hg] at h
      injection h with h2
      subst h2
      exact ⟨fun _ _ _ => rfl, fun _ _ _ => rfl⟩
  | some t =>
      simp only [hg] at h
      by_cases hc : (!jsFalsy t && isEncryptedOpt (some t)) = true
      · rw [if_pos hc] at h
        cases hd : decryptObject C pw t with
        | error e =>
            rw [hd, exc_bind_error] at h
            exact Except.noConfusion h
        | ok d =>
            rw [hd, exc_bind_ok] at h
            injection h with h2
            subst h2
            constructor
            · intro b hb q
              exact cfgGet_cfgSet_diverge [] root (.fieldK ("firefly".toList)) b
                (.fieldK ("tokenApi".toList) :: []) q d (fun hh => hb hh.symm)
            · intro k hk q
              exact cfgGet_cfgSet_diverge [.fieldK ("firefly".toList)] root
                (.fieldK ("tokenApi".toList)) k [] q d (fun hh => hk hh.symm)
      · rw [if_neg hc] at h
        injection h with h2
        subst h2
        exact ⟨fun _ _ _ => rfl, fun _ _ _ => rfl⟩

/-- C9: the resolver's decryption step rewrites only the `banks` subtree and
the `firefly.tokenApi` leaf.  Whenever it succeeds, any read whose first key
is neither `banks` nor `firefly` — and any read under `firefly` whose second
key is not `tokenApi` — returns exactly what it returned before the step;
in particular, an encrypted string anywhere else stays an envelope.  And a
document whose `banks` subtree has no encrypted leaf and whose
`firefly.tokenApi` is not an envelope does not trigger the master-secret
requirement: the step succeeds with no master password and returns the
document unchanged, regardless of encrypted strings elsewhere. -/
theorem resolveDecryption_frame (C : CryptoPrimitives) (mpw : Option (List Char))
    (root root' : Node) (h : resolveDecryption C mpw root = .ok root') :
    (∀ b : Key, b ≠ .fieldK ("banks".toList) → b ≠ .fieldK ("firefly".toList) →
      ∀ q : List Key, cfgGet root' (b :: q) = cfgGet root (b :: q)) ∧
    (∀ k : Key, k ≠ .fieldK ("tokenApi".toList) → ∀ q : List Key,
      cfgGet root' (.fieldK ("firefly".toList) :: k :: q)
        = cfgGet root (.fieldK ("firefly".toList) :: k :: q)) ∧
    (hasEncryptedValuesOpt (cfgGet root banksKeys) = false →
      isEncryptedOpt (cfgGet root tokenApiKeys) = false →
      resolveDecryption C none root = .ok root) := by
  have hlast : hasEncryptedValuesOpt (cfgGet root banksKeys) = false →
      isEncryptedOpt (cfgGet root tokenApiKeys) = false →
      resolveDecryption C none root = .ok root := by
    intro h1 h2
    rw [resolveDecryption.eq_def]
    simp [h1, h2]
  rw [resolveDecryption.eq_def] at h
  by_cases hneed : (hasEncryptedValuesOpt (cfgGet root banksKeys) ||
      isEncryptedOpt (cfgGet root tokenApiKeys)) = true
  · rw [if_pos hneed] at h
    cases mpw with
    | none => exact Except.noConfusion h
    | some pw =>
        cases hb : decryptBanksConfig C pw root with
        | error e =>
            simp only [hb] at h
            exact Except.noConfusion h
        | ok r1 =>
            simp only [hb] at h
            cases hf : decryptFireflyConfig C pw r1 with
            | error e =>
                simp only [hf] at h
                exact Except.noConfusion h
            | ok r2 =>
                simp only [hf] at h
                injection h with h2
                subst h2
                obtain ⟨hff1, hff2⟩ := decryptFireflyConfig_frame C pw r1 r2 hf
                refine ⟨?_, ?_, hlast⟩
                · intro b hbb hbf q
                  rw [hff1 b hbf q]
                  exact decryptBanksConfig_frame C pw root r1 hb b hbb q
                · intro k hk q
                  rw [hff2 k hk q]
                  exact decryptBanksConfig_frame C pw root r1 hb
                    (.fieldK ("firefly".toList)) (by simp [banksKeys]) (k :: q)
  · rw [if_neg hneed] at h
    injection h with h2
    subst h2
    exact ⟨fun _ _ _ _ => rfl, fun _ _ _ => rfl, hlast⟩

/-- A document with an envelope at `firefly.tokenApi` and another envelope at
the unrelated top-level `cron` key. -/
def fringeDoc : Node :=
  nobj [("firefly", nobj [("baseUrl", nstr "u"), ("tokenApi", nstr "encrypted:v1:AAAA")]),
    ("cron", nstr "encrypted:v1:BBBB")]

/-- `fringeDoc` after the decryption step under `toyRound`: `tokenApi` is
decrypted, the `cron` envelope is untouched. -/
def fringeDocRes : Node :=
  nobj [("firefly", nobj [("baseUrl", nstr "u"), ("tokenApi", nstr "a")]),
    ("cron", nstr "encrypted:v1:BBBB")]

theorem resolveDecryption_frame_witness :
    resolveDecryption toyRound (some ("pw".toList)) fringeDoc = .ok fringeDocRes ∧
    cfgGet fringeDocRes [.fieldK ("cron".toList)]
      = cfgGet fringeDoc [.fieldK ("cron".toList)] ∧
    cfgGet fringeDocRes [.fieldK ("firefly".toList), .fieldK ("baseUrl".toList)]
      = cfgGet fringeDoc [.fieldK ("firefly".toList), .fieldK ("baseUrl".toList)] :=
  ⟨by rfl,
    (resolveDecryption_frame toyRound (some ("pw".toList)) fringeDoc fringeDocRes
      (by rfl)).1 (.fieldK ("cron".toList)) (by decide) (by decide) [],
    (resolveDecryption_frame toyRound (some ("pw".toList)) fringeDoc fringeDocRes
      (by rfl)).2.1 (.fieldK ("baseUrl".toList)) (by decide) []⟩

/-- A loadable document (all required keys present) whose `banks` subtree and
`firefly.tokenApi` are plaintext, but which carries an envelope at the
unrelated top-level `cron` key. -/
def gatingDoc : Node :=
  nobj [("firefly", nobj [("baseUrl", nstr "u"), ("tokenApi", nstr "tok")]),
        ("banks", narr []), ("cron", nstr "encrypted:v1:AAAA")]

/-- C4 counterexample: `gatingDoc` contains an encrypted leaf (at `cron`),
yet the resolver completes successfully with no master secret present — the
gate inspects only `banks` and `firefly.tokenApi`, not the whole document, so
"at least one encrypted leaf implies MasterSecretRequired" fails as stated. -/
theorem loadConfig_gating_counterexample :
    hasEncryptedValues gatingDoc = true ∧
    loadConfig toyRound (fun _ => none) none gatingDoc = .ok gatingDoc :=
  ⟨by rfl, by rfl⟩

/-- C4 (amended): after the credential environment overrides, if neither the
`banks` subtree nor the `firefly.tokenApi` leaf of the document contains an
encrypted value, resolution completes successfully with no master secret
present; if either does, resolution fails with `masterSecretRequired` when
the master-secret variable is absent, before any decryption is attempted.
(Encrypted leaves outside those two places do not participate in the gate.) -/
theorem loadConfig_decryption_gating (C : CryptoPrimitives) (env : EnvMap)
    (root : Node) (hreq : requiredOk root = true) :
    (hasEncryptedValuesOpt
        (cfgGet (applyCredentialEnvOverrides env root) banksKeys) = false →
      isEncryptedOpt
        (cfgGet (applyCredentialEnvOverrides env root) tokenApiKeys) = false →
      loadConfig C env none root = .ok (applyCredentialEnvOverrides env root)) ∧
    (hasEncryptedValuesOpt
        (cfgGet (applyCredentialEnvOverrides env root) banksKeys) = true ∨
      isEncryptedOpt
        (cfgGet (applyCredentialEnvOverrides env root) tokenApiKeys) = true →
      loadConfig C env none root = .error .masterSecretRequired) := by
  constructor
  · intro h1 h2
    rw [loadConfig]
    simp only [hreq, Bool.not_true, Bool.false_eq_true, if_false]
    rw [resolveDecryption.eq_def]
    simp [h1, h2, envSecret]
  · intro h
    rw [loadConfig]
    simp only [hreq, Bool.not_true, Bool.false_eq_true, if_false]
    rw [resolveDecryption.eq_def]
    rcases h with h | h <;> simp [h, envSecret]

/-- A loadable document with an encrypted credential inside `banks`. -/
def encBankDoc : Node :=
  nobj [("firefly", nobj [("baseUrl", nstr "u"), ("tokenApi", nstr "t")]),
        ("banks", narr [nobj [("credentials",
          nobj [("password", nstr "encrypted:v1:AAAA")])]])]

theorem loadConfig_decryption_gating_witness :
    requiredOk encBankDoc = true ∧
    loadConfig toyRound (fun _ => none) none encBankDoc
      = .error .masterSecretRequired :=
  ⟨by rfl,
    (loadConfig_decryption_gating toyRound (fun _ => none) encBankDoc (by rfl)).2
      (Or.inl (by rfl))⟩

theorem cfgGet_maybeSet_diverge (root : Node) (pre : List Key) (a b : Key)
    (p q : List Key) (v : Option (List Char)) (hab : a ≠ b) :
    cfgGet (maybeSet root (pre ++ a :: p) v) (pre ++ b :: q)
      = cfgGet root (pre ++ b :: q) := by
  rcases v with _ | s
  · rfl
  · rw [maybeSet]
    by_cases hs : s.isEmpty
    · rw [if_pos hs]
    · rw [if_neg hs]
      exact cfgGet_cfgSet_diverge pre root a b p q _ hab

theorem maybeSet_bank_preserves_bank (root : Node) (i' i : Nat) (f' f : List Char)
    (v : Option (List Char)) (hne : i' ≠ i ∨ f' ≠ f) :
    cfgGet (maybeSet root (bankCredKeys i' f') v) (bankCredKeys i f)
      = cfgGet root (bankCredKeys i f) := by
  by_cases hii : i' = i
  · subst hii
    have hf : f' ≠ f := by
      rcases hne with hne | hne
      · exact absurd rfl hne
      · exact hne
    exact cfgGet_maybeSet_diverge root
      [.fieldK ("banks".toList), .indexK i', .fieldK ("credentials".toList)]
      (.fieldK f') (.fieldK f) [] [] v (fun hh => hf (by injection hh))
  · exact cfgGet_maybeSet_diverge root [.fieldK ("banks".toList)]
      (.indexK i') (.indexK i)
      [.fieldK ("credentials".toList), .fieldK f']
      [.fieldK ("credentials".toList), .fieldK f] v (fun hh => hii (by injection hh))

theorem maybeSet_cc_preserves_bank (root : Node) (i' j' i : Nat) (f' f : List Char)
    (v : Option (List Char)) :
    cfgGet (maybeSet root (ccCredKeys i' j' f') v) (bankCredKeys i f)
      = cfgGet root (bankCredKeys i f) := by
  by_cases hii : i' = i
  · subst hii
    exact cfgGet_maybeSet_diverge root [.fieldK ("banks".toList), .indexK i']
      (.fieldK ("creditCards".toList)) (.fieldK ("credentials".toList))
      [.indexK j', .fieldK ("credentials".toList), .fieldK f'] [.fieldK f] v (by decide)
  · exact cfgGet_maybeSet_diverge root [.fieldK ("banks".toList)]
      (.indexK i') (.indexK i)
      [.fieldK ("creditCards".toList), .indexK j', .fieldK ("credentials".toList), .fieldK f']
      [.fieldK ("credentials".toList), .fieldK f] v (fun hh => hii (by injection hh))

theorem maybeSet_bank_preserves_cc (root : Node) (i' i j : Nat) (f' f : List Char)
    (v : Option (List Char)) :
    cfgGet (maybeSet root (bankCredKeys i' f') v) (ccCredKeys i j f)
      = cfgGet root (ccCredKeys i j f) := by
  by_cases hii : i' = i
  · subst hii
    exact cfgGet_maybeSet_diverge root [.fieldK ("banks".toList), .indexK i']
      (.fieldK ("credentials".toList)) (.fieldK ("creditCards".toList))
      [.fieldK f'] [.indexK j, .fieldK ("credentials".toList), .fieldK f] v (by decide)
  · exact cfgGet_maybeSet_diverge root [.fieldK ("banks".toList)]
      (.indexK i') (.indexK i)
      [.fieldK ("credentials".toList), .fieldK f']
      [.fieldK ("creditCards".toList), .indexK j, .fieldK ("credentials".toList), .fieldK f]
      v (fun hh => hii (by injection hh))

theorem maybeSet_cc_preserves_cc (root : Node) (i' j' i j : Nat) (f' f : List Char)
    (v : Option (List Char)) (hne : i' ≠ i ∨ j' ≠ j ∨ f' ≠ f) :
    cfgGet (maybeSet root (ccCredKeys i' j' f') v) (ccCredKeys i j f)
      = cfgGet root (ccCredKeys i j f) := by
  by_cases hii : i' = i
  · subst hii
    by_cases hjj : j' = j
    · subst hjj
      have hf : f' ≠ f := by
        rcases hne with hne | hne | hne
        · exact absurd rfl hne
        · exact absurd rfl hne
        · exact hne
      exact cfgGet_maybeSet_diverge root
        [.fieldK ("banks".toList), .indexK i', .fieldK ("creditCards".toList),
         .indexK j', .fieldK ("credentials".toList)]
        (.fieldK f') (.fieldK f) [] [] v (fun hh => hf (by injection hh))
    · exact cfgGet_maybeSet_diverge root
        [.fieldK ("banks".toList), .indexK i', .fieldK ("creditCards".toList)]
        (.indexK j') (.indexK j)
        [.fieldK ("credentials".toList), .fieldK f']
        [.fieldK ("credentials".toList), .fieldK f] v (fun hh => hjj (by injection hh))
  · exact cfgGet_maybeSet_diverge root [.fieldK ("banks".toList)]
      (.indexK i') (.indexK i)
      [.fieldK ("creditCards".toList), .indexK j', .fieldK ("credentials".toList), .fieldK f']
      [.fieldK ("creditCards".toList), .indexK j, .fieldK ("credentials".toList), .fieldK f]
      v (fun hh => hii (by injection hh))

theorem applyCcOverrides_preserves_bank (env : EnvMap) (i' i : Nat) (f : List Char) :
    ∀ (ccs : NodeList) (j : Nat) (root : Node),
    cfgGet (applyCcOverrides env i' j ccs root) (bankCredKeys i f)
      = cfgGet root (bankCredKeys i f)
  | .nil, _, _ => rfl
  | .cons _ ccs, j, root => by
      simp only [applyCcOverrides]
      rw [applyCcOverrides_preserves_bank env i' i f ccs (j + 1) _]
      rw [maybeSet_cc_preserves_bank, maybeSet_cc_preserves_bank,
        maybeSet_cc_preserves_bank, maybeSet_cc_preserves_bank]

theorem applyBankOverrides_preserves_bank (env : EnvMap) (i' : Nat) (bank : Node)
    (i : Nat) (f : List Char) (hne : i' ≠ i) (root : Node) :
    cfgGet (applyBankOverrides env i' bank root) (bankCredKeys i f)
      = cfgGet root (bankCredKeys i f) := by
  simp only [applyBankOverrides]
  rw [applyCcOverrides_preserves_bank]
  rw [maybeSet_bank_preserves_bank _ i' i _ _ _ (Or.inl hne),
    maybeSet_bank_preserves_bank _ i' i _ _ _ (Or.inl hne),
    maybeSet_bank_preserves_bank _ i' i _ _ _ (Or.inl hne),
    maybeSet_bank_preserves_bank _ i' i _ _ _ (Or.inl hne)]

theorem bankCredKeys_ne_nil (i : Nat) (f : List Char) : bankCredKeys i f ≠ [] := by
  simp [bankCredKeys]

theorem ccCredKeys_ne_nil (i j : Nat) (f : List Char) : ccCredKeys i j f ≠ [] := by
  simp [ccCredKeys]

theorem applyBankOverrides_sets_password (env : EnvMap) (i : Nat) (bank root : Node)
    (fv v : List Char)
    (hget : cfgGet root (bankCredKeys i ("password".toList)) = some (.str fv))
    (henv : env (bankVar i ("PASSWORD".toList)) = some v) (hv : v ≠ []) :
    cfgGet (applyBankOverrides env i bank root) (bankCredKeys i ("password".toList))
      = some (.str v) := by
  simp only [applyBankOverrides]
  rw [applyCcOverrides_preserves_bank]
  rw [maybeSet_bank_preserves_bank _ i i _ _ _ (Or.inr (by decide)),
    maybeSet_bank_preserves_bank _ i i _ _ _ (Or.inr (by decide))]
  rw [henv, maybeSet]
  rw [if_neg (by simp [List.isEmpty_iff, hv])]
  refine cfgGet_cfgSet_self _ _ (.str fv) (.str v) (bankCredKeys_ne_nil i _) ?_
  rw [maybeSet_bank_preserves_bank _ i i _ _ _ (Or.inr (by decide))]
  exact hget

theorem applyBanksFold_preserves_bank_lt (env : EnvMap) (i : Nat) (f : List Char) :
    ∀ (banks : NodeList) (i0 : Nat) (root : Node), i < i0 →
    cfgGet (applyBanksFold env i0 banks root) (bankCredKeys i f)
      = cfgGet root (bankCredKeys i f)
  | .nil, _, _, _ => rfl
  | .cons bank banks, i0, root, hlt => by
      rw [applyBanksFold]
      rw [applyBanksFold_preserves_bank_lt env i f banks (i0 + 1) _ (by omega)]
      exact applyBankOverrides_preserves_bank env i0 bank i f (by omega) root

theorem applyBanksFold_sets_password (env : EnvMap) (i : Nat) (fv v : List Char)
    (henv : env (bankVar i ("PASSWORD".toList)) = some v) (hv : v ≠ []) :
    ∀ (banks : NodeList) (i0 : Nat) (root b : Node),
    listGet banks (i - i0) = some b → i0 ≤ i →
    cfgGet root (bankCredKeys i ("password".toList)) = some (.str fv) →
    cfgGet (applyBanksFold env i0 banks root) (bankCredKeys i ("password".toList))
      = some (.str v)
  | .nil, i0, root, b, hg, _, _ => Option.noConfusion hg
  | .cons bank banks, i0, root, b, hg, hle, hget => by
      rw [applyBanksFold]
      by_cases hii : i0 = i
      · subst hii
        rw [applyBanksFold_preserves_bank_lt env i0 _ banks (i0 + 1) _ (by omega)]
        exact applyBankOverrides_sets_password env i0 bank root fv v hget henv hv
      · have hg' : listGet banks (i - (i0 + 1)) = some b := by
          have heq : i - i0 = (i - (i0 + 1)) + 1 := by omega
          rw [heq] at hg
          exact hg
        refine applyBanksFold_sets_password env i fv v henv hv banks (i0 + 1) _ b hg'
          (by omega) ?_
        rw [applyBankOverrides_preserves_bank env i0 bank i _ hii root]
        exact hget

theorem applyCcOverrides_preserves_cc (env : EnvMap) (i' i j : Nat) (f : List Char) :
    ∀ (ccs : NodeList) (j0 : Nat) (root : Node), i' ≠ i ∨ j < j0 →
    cfgGet (applyCcOverrides env i' j0 ccs root) (ccCredKeys i j f)
      = cfgGet root (ccCredKeys i j f)
  | .nil, _, _, _ => rfl
  | .cons _ ccs, j0, root, hne => by
      simp only [applyCcOverrides]
      have hne' : i' ≠ i ∨ j0 ≠ j := by
        rcases hne with hne | hne
        · exact Or.inl hne
        · exact Or.inr (by omega)
      have hrec : i' ≠ i ∨ j < j0 + 1 := by
        rcases hne with hne | hne
        · exact Or.inl hne
        · exact Or.inr (by omega)
      rw [applyCcOverrides_preserves_cc env i' i j f ccs (j0 + 1) _ hrec]
      rw [maybeSet_cc_preserves_cc _ i' j0 i j _ _ _ (hne'.imp id Or.inl),
        maybeSet_cc_preserves_cc _ i' j0 i j _ _ _ (hne'.imp id Or.inl),
        maybeSet_cc_preserves_cc _ i' j0 i j _ _ _ (hne'.imp id Or.inl),
        maybeSet_cc_preserves_cc _ i' j0 i j _ _ _ (hne'.imp id Or.inl)]

theorem applyCcOverrides_sets_password (env : EnvMap) (i j : Nat) (fv v : List Char)
    (henv : env (ccVar i j ("PASSWORD".toList)) = some v) (hv : v ≠ []) :
    ∀ (ccs : NodeList) (j0 : Nat) (root b : Node),
    listGet ccs (j - j0) = some b → j0 ≤ j →
    cfgGet root (ccCredKeys i j ("password".toList)) = some (.str fv) →
    cfgGet (applyCcOverrides env i j0 ccs root) (ccCredKeys i j ("password".toList))
      = some (.str v)
  | .nil, j0, root, b, hg, _, _ => Option.noConfusion hg
  | .cons cc ccs, j0, root, b, hg, hle, hget => by
      simp only [applyCcOverrides]
      by_cases hjj : j0 = j
      · subst hjj
        rw [applyCcOverrides_preserves_cc env i i j0 _ ccs (j0 + 1) _ (Or.inr (by omega))]
        rw [maybeSet_cc_preserves_cc _ i j0 i j0 _ _ _ (Or.inr (Or.inr (by decide))),
          maybeSet_cc_preserves_cc _ i j0 i j0 _ _ _ (Or.inr (Or.inr (by decide)))]
        rw [henv, maybeSet, if_neg (by simp [List.isEmpty_iff, hv])]
        refine cfgGet_cfgSet_self _ _ (.str fv) (.str v) (ccCredKeys_ne_nil i j0 _) ?_
        rw [maybeSet_cc_preserves_cc _ i j0 i j0 _ _ _ (Or.inr (Or.inr (by decide)))]
        exact hget
      · have hg' : listGet ccs (j - (j0 + 1)) = some b := by
          have heq : j - j0 = (j - (j0 + 1)) + 1 := by omega
          rw [heq] at hg
          exact hg
        refine applyCcOverrides_sets_password env i j fv v henv hv ccs (j0 + 1) _ b hg'
          (by omega) ?_
        rw [maybeSet_cc_preserves_cc _ i j0 i j _ _ _ (Or.inr (Or.inl hjj)),
          maybeSet_cc_preserves_cc _ i j0 i j _ _ _ (Or.inr (Or.inl hjj)),
          maybeSet_cc_preserves_cc _ i j0 i j _ _ _ (Or.inr (Or.inl hjj)),
          maybeSet_cc_preserves_cc _ i j0 i j _ _ _ (Or.inr (Or.inl hjj))]
        exact hget

theorem applyBankOverrides_preserves_cc (env : EnvMap) (i' : Nat) (bank : Node)
    (i j : Nat) (f : List Char) (hne : i' ≠ i) (root : Node) :
    cfgGet (applyBankOverrides env i' bank root) (ccCredKeys i j f)
      = cfgGet root (ccCredKeys i j f) := by
  simp only [applyBankOverrides]
  rw [applyCcOverrides_preserves_cc env i' i j f _ 0 _ (Or.inl hne)]
  rw [maybeSet_bank_preserves_cc, maybeSet_bank_preserves_cc,
    maybeSet_bank_preserves_cc, maybeSet_bank_preserves_cc]

theorem applyBankOverrides_sets_cc_password (env : EnvMap) (i j : Nat)
    (bank root cb : Node) (fv v : List Char)
    (hcc : listGet (ccListOf bank) j = some cb)
    (hget : cfgGet root (ccCredKeys i j ("password".toList)) = some (.str fv))
    (henv : env (ccVar i j ("PASSWORD".toList)) = some v) (hv : v ≠ []) :
    cfgGet (applyBankOverrides env i bank root) (ccCredKeys i j ("password".toList))
      = some (.str v) := by
  simp only [applyBankOverrides]
  refine applyCcOverrides_sets_password env i j fv v henv hv (ccListOf bank) 0 _ cb
    (by simpa using hcc) (by omega) ?_
  rw [maybeSet_bank_preserves_cc, maybeSet_bank_preserves_cc,
    maybeSet_bank_preserves_cc, maybeSet_bank_preserves_cc]
  exact hget

theorem applyBanksFold_preserves_cc_lt (env : EnvMap) (i j : Nat) (f : List Char) :
    ∀ (banks : NodeList) (i0 : Nat) (root : Node), i < i0 →
    cfgGet (applyBanksFold env i0 banks root) (ccCredKeys i j f)
      = cfgGet root (ccCredKeys i j f)
  | .nil, _, _, _ => rfl
  | .cons bank banks, i0, root, hlt => by
      rw [applyBanksFold]
      rw [applyBanksFold_preserves_cc_lt env i j f banks (i0 + 1) _ (by omega)]
      exact applyBankOverrides_preserves_cc env i0 bank i j f (by omega) root

theorem applyBanksFold_sets_cc (env : EnvMap) (i j : Nat) (fv v : List Char)
    (henv : env (ccVar i j ("PASSWORD".toList)) = some v) (hv : v ≠ []) :
    ∀ (banks : NodeList) (i0 : Nat) (root b cb : Node),
    listGet banks (i - i0) = some b → i0 ≤ i →
    listGet (ccListOf b) j = some cb →
    cfgGet root (ccCredKeys i j ("password".toList)) = some (.str fv) →
    cfgGet (applyBanksFold env i0 banks root) (ccCredKeys i j ("password".toList))
      = some (.str v)
  | .nil, i0, root, b, cb, hg, _, _, _ => Option.noConfusion hg
  | .cons bank banks, i0, root, b, cb, hg, hle, hcc, hget => by
      rw [applyBanksFold]
      by_cases hii : i0 = i
      · subst hii
        rw [applyBanksFold_preserves_cc_lt env i0 j _ banks (i0 + 1) _ (by omega)]
        have hb : bank = b := by
          have h0 : i0 - i0 = 0 := by omega
          rw [h0] at hg
          injection hg
        subst hb
        exact applyBankOverrides_sets_cc_password env i0 j bank root cb fv v hcc
          hget henv hv
      · have hg' : listGet banks (i - (i0 + 1)) = some b := by
          have heq : i - i0 = (i - (i0 + 1)) + 1 := by omega
          rw [heq] at hg
          exact hg
        refine applyBanksFold_sets_cc env i j fv v henv hv banks (i0 + 1) _ b cb hg'
          (by omega) hcc ?_
        rw [applyBankOverrides_preserves_cc env i0 bank i j _ hii root]
        exact hget

theorem cfgGet_cons_inv (t : Node) (k : Key) (rest : List Key) (x : Node)
    (h : cfgGet t (k :: rest) = some x) :
    ∃ c, getChild t k = some c ∧ cfgGet c rest = some x := by
  cases hg : getChild t k with
  | none => rw [cfgGet_cons_none _ _ _ hg] at h; exact Option.noConfusion h
  | some c =>
      refine ⟨c, rfl, ?_⟩
      rw [cfgGet_cons_some _ _ _ _ hg] at h
      exact h

theorem getChild_indexK_inv (t : Node) (i : Nat) (c : Node)
    (h : getChild t (.indexK i) = some c) :
    ∃ l, t = .arr l ∧ listGet l i = some c := by
  cases t with
  | arr l => exact ⟨l, rfl, h⟩
  | obj f => exact Option.noConfusion h
  | str s => exact Option.noConfusion h
  | num n => exact Option.noConfusion h
  | bool b => exact Option.noConfusion h
  | null => exact Option.noConfusion h

theorem banksListOf_eq (root : Node) (l : NodeList)
    (h : getChild root (.fieldK ("banks".toList)) = some (.arr l)) :
    banksListOf root = l := by
  rw [banksListOf, cfgGet_single, h]

theorem ccListOf_eq (bank : Node) (ccl : NodeList)
    (h : getChild bank (.fieldK ("creditCards".toList)) = some (.arr ccl)) :
    ccListOf bank = ccl := by
  cases bank with
  | obj f =>
      have h' : fieldsGet f ("creditCards".toList) = some (.arr ccl) := h
      show (match fieldsGet f ("creditCards".toList) with
        | some (.arr l) => l
        | _ => NodeList.nil) = ccl
      rw [h']
  | arr l => exact Option.noConfusion h
  | str s => exact Option.noConfusion h
  | num n => exact Option.noConfusion h
  | bool b => exact Option.noConfusion h
  | null => exact Option.noConfusion h

/-- C5: resolver credential precedence.  If the document holds a file value at
`banks[i].credentials.password` and the positional variable `BANK_i_PASSWORD`
is set (non-empty), the override-applied configuration holds the environment
value at that slot; likewise for a nested credit-card slot
`banks[i].creditCards[j].credentials.password` and `BANK_i_CC_j_PASSWORD`. -/
theorem applyCredentialEnvOverrides_precedence (env : EnvMap) (root : Node) :
    (∀ (i : Nat) (fv v : List Char),
      cfgGet root (bankCredKeys i ("password".toList)) = some (.str fv) →
      env (bankVar i ("PASSWORD".toList)) = some v → v ≠ [] →
      cfgGet (applyCredentialEnvOverrides env root)
        (bankCredKeys i ("password".toList)) = some (.str v)) ∧
    (∀ (i j : Nat) (fv v : List Char),
      cfgGet root (ccCredKeys i j ("password".toList)) = some (.str fv) →
      env (ccVar i j ("PASSWORD".toList)) = some v → v ≠ [] →
      cfgGet (applyCredentialEnvOverrides env root)
        (ccCredKeys i j ("password".toList)) = some (.str v)) := by
  constructor
  · intro i fv v hfile henv hv
    have hfile' : cfgGet root (Key.fieldK ("banks".toList) ::
        [Key.indexK i, Key.fieldK ("credentials".toList),
         Key.fieldK ("password".toList)]) = some (.str fv) := hfile
    obtain ⟨B, hB, h1⟩ := cfgGet_cons_inv root _ _ _ hfile'
    obtain ⟨bank, hbk, h2⟩ := cfgGet_cons_inv B _ _ _ h1
    obtain ⟨l, rfl, hlg⟩ := getChild_indexK_inv B i bank hbk
    show cfgGet (applyBanksFold env 0 (banksListOf root) root)
      (bankCredKeys i ("password".toList)) = some (.str v)
    rw [banksListOf_eq root l hB]
    exact applyBanksFold_sets_password env i fv v henv hv l 0 root bank
      (by simpa using hlg) (by omega) hfile
  · intro i j fv v hfile henv hv
    have hfile' : cfgGet root (Key.fieldK ("banks".toList) ::
        [Key.indexK i, Key.fieldK ("creditCards".toList), Key.indexK j,
         Key.fieldK ("credentials".toList), Key.fieldK ("password".toList)])
        = some (.str fv) := hfile
    obtain ⟨B, hB, h1⟩ := cfgGet_cons_inv root _ _ _ hfile'
    obtain ⟨bank, hbk, h2⟩ := cfgGet_cons_inv B _ _ _ h1
    obtain ⟨l, rfl, hlg⟩ := getChild_indexK_inv B i bank hbk
    obtain ⟨CC, hCC, h3⟩ := cfgGet_cons_inv bank _ _ _ h2
    obtain ⟨ccb, hccb, h4⟩ := cfgGet_cons_inv CC _ _ _ h3
    obtain ⟨ccl, rfl, hclg⟩ := getChild_indexK_inv CC j ccb hccb
    show cfgGet (applyBanksFold env 0 (banksListOf root) root)
      (ccCredKeys i j ("password".toList)) = some (.str v)
    rw [banksListOf_eq root l hB]
    refine applyBanksFold_sets_cc env i j fv v henv hv l 0 root bank ccb
      (by simpa using hlg) (by omega) ?_ hfile
    rw [ccListOf_eq bank ccl hCC]
    exact hclg

/-- A document with file-supplied passwords in both a bank slot and a nested
credit-card slot. -/
def precDoc : Node :=
  nobj [("firefly", nobj [("baseUrl", nstr "u"), ("tokenApi", nstr "t")]),
    ("banks", narr [nobj [
      ("type", nstr "leumi"),
      ("credentials", nobj [("username", nstr "user"), ("password", nstr "filepw")]),
      ("creditCards", narr [nobj [
        ("type", nstr "isracard"),
        ("credentials", nobj [("password", nstr "ccfile")])]])]])]

/-- An environment setting `BANK_0_PASSWORD` and `BANK_0_CC_0_PASSWORD`. -/
def precEnv : EnvMap := fun name =>
  if name = bankVar 0 ("PASSWORD".toList) then some ("envpw".toList)
  else if name = ccVar 0 0 ("PASSWORD".toList) then some ("ccenv".toList)
  else none

theorem applyCredentialEnvOverrides_precedence_witness :
    cfgGet precDoc (bankCredKeys 0 ("password".toList))
      = some (.str ("filepw".toList)) ∧
    precEnv (bankVar 0 ("PASSWORD".toList)) = some ("envpw".toList) ∧
    ("envpw".toList : List Char) ≠ [] ∧
    cfgGet (applyCredentialEnvOverrides precEnv precDoc)
      (bankCredKeys 0 ("password".toList)) = some (.str ("envpw".toList)) ∧
    cfgGet (applyCredentialEnvOverrides precEnv precDoc)
      (ccCredKeys 0 0 ("password".toList)) = some (.str ("ccenv".toList)) :=
  ⟨by rfl, by rfl, by decide,
    (applyCredentialEnvOverrides_precedence precEnv precDoc).1 0
      ("filepw".toList) ("envpw".toList) (by rfl) (by rfl) (by decide),
    (applyCredentialEnvOverrides_precedence precEnv precDoc).2 0 0
      ("ccfile".toList) ("ccenv".toList) (by rfl) (by rfl) (by decide)⟩

end BankImporter
